import Mathlib

set_option maxRecDepth 10000

/-!
# A verification development for the `mydb` single-file storage engine

This file shallowly embeds `src/mydb/storage/__init__.py` in Lean 4 and
proves the behavioural laws of its codecs and table operations.

Modelling conventions:
* A Python `str` is a list of Unicode code points (`List Nat`); a Python
  `bytes` is a list of byte values (`List Nat`, each < 256).  `str.encode`
  and `bytes.decode` are the explicit UTF-8 codec below.
* Python exceptions are the `MyErr` inductive; stateful operations that
  may both mutate the file and raise are modelled as returning the file
  state paired with an optional error, the state being the file contents
  at the time of the raise (validation happens before any write).
* Machine integers are `Int`/`Nat` with explicit range checks, exactly as
  CPython's arbitrary-precision `int` plus `int.to_bytes` bounds.
-/

/-- A Python `str`: a sequence of Unicode code points. -/
abbrev PyStr := List Nat

/-- A Python `bytes`: a sequence of byte values. -/
abbrev PyBytes := List Nat

/-- A code point that `str.encode("utf-8")` accepts: a Unicode scalar
value (not a surrogate, below 0x110000). -/
def ValidScalar (c : Nat) : Prop := c < 0xD800 ∨ (0xDFFF < c ∧ c < 0x110000)

instance (c : Nat) : Decidable (ValidScalar c) := by
  unfold ValidScalar; infer_instance

/-- Strings all of whose code points are encodable scalar values. -/
def EncodableStr (s : PyStr) : Prop := ∀ c ∈ s, ValidScalar c

instance (s : PyStr) : Decidable (EncodableStr s) := by
  unfold EncodableStr; infer_instance

/-- UTF-8 encoding of one code point (standard 1–4 byte forms). -/
def utf8EncodeCp (c : Nat) : PyBytes :=
  if c < 0x80 then [c]
  else if c < 0x800 then [0xC0 + c / 64, 0x80 + c % 64]
  else if c < 0x10000 then
    [0xE0 + c / 4096, 0x80 + c / 64 % 64, 0x80 + c % 64]
  else
    [0xF0 + c / 262144, 0x80 + c / 4096 % 64, 0x80 + c / 64 % 64, 0x80 + c % 64]

/-- UTF-8 encoding of a whole string (`str.encode("utf-8")`). -/
def utf8Encode (s : PyStr) : PyBytes := s.flatMap utf8EncodeCp

theorem utf8EncodeCp_ne_nil (c : Nat) : utf8EncodeCp c ≠ [] := by
  unfold utf8EncodeCp; split_ifs <;> simp

theorem length_le_length_utf8Encode (s : PyStr) :
    s.length ≤ (utf8Encode s).length := by
  induction s with
  | nil => simp [utf8Encode]
  | cons c rest ih =>
    have h1 : 1 ≤ (utf8EncodeCp c).length := by
      rcases List.exists_cons_of_ne_nil (utf8EncodeCp_ne_nil c) with ⟨a, t, he⟩
      simp [he]
    have h2 := ih
    simp only [utf8Encode, List.flatMap_cons, List.length_append,
      List.length_cons] at h2 ⊢
    omega

/-- Decode one UTF-8 sequence from the front of a byte list, returning the
code point and the remaining bytes.  Rejects truncated sequences, stray
continuation bytes, overlong forms, surrogates and values above 0x10FFFF,
exactly as CPython's strict `bytes.decode("utf-8")`. -/
def utf8DecodeOne (l : PyBytes) : Option (Nat × PyBytes) :=
  match l with
  | [] => none
  | b0 :: rest =>
    if b0 < 0x80 then some (b0, rest)
    else if b0 < 0xC2 then none
    else if b0 < 0xE0 then
      match rest with
      | b1 :: rest1 =>
        if 0x80 ≤ b1 ∧ b1 < 0xC0 then
          some ((b0 - 0xC0) * 64 + (b1 - 0x80), rest1)
        else none
      | [] => none
    else if b0 < 0xF0 then
      match rest with
      | b1 :: b2 :: rest2 =>
        if (0x80 ≤ b1 ∧ b1 < 0xC0) ∧ (0x80 ≤ b2 ∧ b2 < 0xC0) ∧
            0x800 ≤ (b0 - 0xE0) * 4096 + (b1 - 0x80) * 64 + (b2 - 0x80) ∧
            ¬(0xD800 ≤ (b0 - 0xE0) * 4096 + (b1 - 0x80) * 64 + (b2 - 0x80) ∧
              (b0 - 0xE0) * 4096 + (b1 - 0x80) * 64 + (b2 - 0x80) ≤ 0xDFFF) then
          some ((b0 - 0xE0) * 4096 + (b1 - 0x80) * 64 + (b2 - 0x80), rest2)
        else none
      | _ => none
    else if b0 < 0xF5 then
      match rest with
      | b1 :: b2 :: b3 :: rest3 =>
        if (0x80 ≤ b1 ∧ b1 < 0xC0) ∧ (0x80 ≤ b2 ∧ b2 < 0xC0) ∧
            (0x80 ≤ b3 ∧ b3 < 0xC0) ∧
            0x10000 ≤ (b0 - 0xF0) * 262144 + (b1 - 0x80) * 4096 +
              (b2 - 0x80) * 64 + (b3 - 0x80) ∧
            (b0 - 0xF0) * 262144 + (b1 - 0x80) * 4096 +
              (b2 - 0x80) * 64 + (b3 - 0x80) ≤ 0x10FFFF then
          some ((b0 - 0xF0) * 262144 + (b1 - 0x80) * 4096 +
            (b2 - 0x80) * 64 + (b3 - 0x80), rest3)
        else none
      | _ => none
    else none

theorem utf8DecodeOne_encodeCp {c : Nat} (hc : ValidScalar c) (rest : PyBytes) :
    utf8DecodeOne (utf8EncodeCp c ++ rest) = some (c, rest) := by
  rcases hc with hc | hc
  · by_cases h1 : c < 0x80
    · simp only [utf8EncodeCp, if_pos h1, List.cons_append, List.nil_append,
        utf8DecodeOne, if_pos h1]
    · by_cases h2 : c < 0x800
      · simp only [utf8EncodeCp, if_neg h1, if_pos h2, List.cons_append,
          List.nil_append, utf8DecodeOne]
        rw [if_neg (by omega), if_neg (by omega), if_pos (by omega),
          if_pos (by omega)]
        simp only [Option.some.injEq, Prod.mk.injEq]
        exact ⟨by omega, trivial⟩
      · have h3 : c < 0x10000 := by omega
        simp only [utf8EncodeCp, if_neg h1, if_neg h2, if_pos h3,
          List.cons_append, List.nil_append, utf8DecodeOne]
        rw [if_neg (by omega), if_neg (by omega), if_neg (by omega),
          if_pos (by omega), if_pos (by omega)]
        simp only [Option.some.injEq, Prod.mk.injEq]
        exact ⟨by omega, trivial⟩
  · by_cases h3 : c < 0x10000
    · simp only [utf8EncodeCp, if_neg (by omega : ¬ c < 0x80),
        if_neg (by omega : ¬ c < 0x800), if_pos h3,
        List.cons_append, List.nil_append, utf8DecodeOne]
      rw [if_neg (by omega), if_neg (by omega), if_neg (by omega),
        if_pos (by omega), if_pos (by omega)]
      simp only [Option.some.injEq, Prod.mk.injEq]
      exact ⟨by omega, trivial⟩
    · simp only [utf8EncodeCp, if_neg (by omega : ¬ c < 0x80),
        if_neg (by omega : ¬ c < 0x800), if_neg h3,
        List.cons_append, List.nil_append, utf8DecodeOne]
      rw [if_neg (by omega), if_neg (by omega), if_neg (by omega),
        if_neg (by omega), if_pos (by omega), if_pos (by omega)]
      simp only [Option.some.injEq, Prod.mk.injEq]
      exact ⟨by omega, trivial⟩

/-- Fuel-driven strict UTF-8 decoding loop; the fuel only bounds the
number of decoded code points and is always called with at least the byte
length of the input, which suffices since every sequence is non-empty. -/
def utf8DecodeAux : Nat → PyBytes → Option PyStr
  | _, [] => some []
  | 0, _ :: _ => none
  | fuel + 1, b :: rest =>
    match utf8DecodeOne (b :: rest) with
    | none => none
    | some (c, r) => (utf8DecodeAux fuel r).map (fun s => c :: s)

/-- Strict UTF-8 decoding of a whole byte string
(`bytes.decode("utf-8")`, default `errors="strict"`); `none` models
`UnicodeDecodeError`. -/
def utf8Decode (l : PyBytes) : Option PyStr := utf8DecodeAux l.length l

/-- Fuel-driven `errors="replace"` decoding loop: malformed input yields
U+FFFD and resynchronises one byte later.  Only ever reached on
well-formed encodings in this development. -/
def utf8DecodeReplaceAux : Nat → PyBytes → PyStr
  | _, [] => []
  | 0, _ :: _ => []
  | fuel + 1, b :: rest =>
    match utf8DecodeOne (b :: rest) with
    | some (c, r) => c :: utf8DecodeReplaceAux fuel r
    | none => 0xFFFD :: utf8DecodeReplaceAux fuel rest

/-- UTF-8 decoding with `errors="replace"` (as used by
`urllib.parse.unquote`). -/
def utf8DecodeReplace (l : PyBytes) : PyStr := utf8DecodeReplaceAux l.length l

theorem utf8DecodeAux_encode {s : PyStr} (hs : EncodableStr s) :
    ∀ fuel, s.length ≤ fuel → utf8DecodeAux fuel (utf8Encode s) = some s := by
  induction s with
  | nil => intro fuel _; simp [utf8Encode, utf8DecodeAux]
  | cons c rest ih =>
    intro fuel hfuel
    have hc : ValidScalar c := hs c (by simp)
    have hrest : EncodableStr rest := fun x hx => hs x (by simp [hx])
    match fuel, hfuel with
    | f + 1, hf =>
      rw [utf8Encode, List.flatMap_cons,
        show rest.flatMap utf8EncodeCp = utf8Encode rest from rfl]
      rcases List.exists_cons_of_ne_nil (utf8EncodeCp_ne_nil c) with ⟨a, t, he⟩
      rw [he, List.cons_append, utf8DecodeAux, ← List.cons_append, ← he,
        utf8DecodeOne_encodeCp hc]
      show (utf8DecodeAux f (utf8Encode rest)).map (fun s => c :: s) = some (c :: rest)
      rw [ih hrest f (by simp only [List.length_cons] at hf; omega)]
      rfl

theorem utf8Decode_encode {s : PyStr} (hs : EncodableStr s) :
    utf8Decode (utf8Encode s) = some s :=
  utf8DecodeAux_encode hs _ (length_le_length_utf8Encode s)

theorem utf8DecodeReplaceAux_encode {s : PyStr} (hs : EncodableStr s) :
    ∀ fuel, s.length ≤ fuel → utf8DecodeReplaceAux fuel (utf8Encode s) = s := by
  induction s with
  | nil => intro fuel _; simp [utf8Encode, utf8DecodeReplaceAux]
  | cons c rest ih =>
    intro fuel hfuel
    have hc : ValidScalar c := hs c (by simp)
    have hrest : EncodableStr rest := fun x hx => hs x (by simp [hx])
    match fuel, hfuel with
    | f + 1, hf =>
      rw [utf8Encode, List.flatMap_cons,
        show rest.flatMap utf8EncodeCp = utf8Encode rest from rfl]
      rcases List.exists_cons_of_ne_nil (utf8EncodeCp_ne_nil c) with ⟨a, t, he⟩
      rw [he, List.cons_append, utf8DecodeReplaceAux, ← List.cons_append, ← he,
        utf8DecodeOne_encodeCp hc]
      show c :: utf8DecodeReplaceAux f (utf8Encode rest) = c :: rest
      rw [ih hrest f (by simp only [List.length_cons] at hf; omega)]

theorem utf8DecodeReplace_encode {s : PyStr} (hs : EncodableStr s) :
    utf8DecodeReplace (utf8Encode s) = s :=
  utf8DecodeReplaceAux_encode hs _ (length_le_length_utf8Encode s)

/-! ## Data model: datatypes, schema, errors
Embedding of `DataTypes`, `_DATATYPE_LENGHTS`, `ColumnInfo`, `TableInfo`
and the exception taxonomy of `mydb.storage`. -/

/-- Embeds `type DataTypes = Literal["STRING", "INTEGER"]`. -/
inductive DataTypes where
  | STRING
  | INTEGER
deriving DecidableEq, Repr

/-- Embeds `_DATATYPE_LENGHTS`: the fixed byte width of each datatype. -/
def DATATYPE_LENGHTS : DataTypes → Nat
  | .STRING => 16
  | .INTEGER => 8

/-- Embeds `MAX_TABLE_NAME_LENGTH = 255`. -/
def MAX_TABLE_NAME_LENGTH : Nat := 255

/-- A Python runtime value that can reach the value codec: the embedding
covers the two storable types. -/
inductive Value where
  | str : PyStr → Value
  | int : Int → Value
deriving DecidableEq, Repr

/-- The exceptions the storage layer can raise.  Each constructor is one
raise site: `columnDoesNotExist` is `ColumnDoesNotExist` (carrying the set
of offending names), `missingColumns` is the `NotImplementedError` for
insert without defaults, `valueTooLarge` is the `assert` in
`_serialize_value` (spec: `ValueTooLarge`), `outOfRange` is `OverflowError`
from `int.to_bytes` (spec: `OutOfRange`), `cannotSerialize` is the
`ValueError` for a type mismatch, `unicodeEncodeErr`/`unicodeDecodeErr`
are codec errors of `str.encode`/`bytes.decode`, `headerNewline` is the
`RuntimeError` in `_serialize_header`, `headerNoNewline` the `assert` in
`_deserialize_header`, `headerParseErr` a pydantic validation failure,
`nameTooLong` the `ValueError` in `Table.create` (spec: `NameTooLong`),
`alreadyExists` is `FileExistsError`, `rowLengthAssert` the `assert` in
`_serialize_row`, `keyErr` a mapping `KeyError`, `fileNotFound` a missing
file on open. -/
inductive MyErr where
  | columnDoesNotExist : List PyStr → MyErr
  | missingColumns : List PyStr → MyErr
  | valueTooLarge
  | outOfRange
  | cannotSerialize
  | unicodeEncodeErr
  | unicodeDecodeErr
  | headerNewline
  | headerNoNewline
  | headerParseErr
  | nameTooLong
  | alreadyExists
  | rowLengthAssert
  | queryLengthAssert
  | keyErr
  | fileNotFound
deriving DecidableEq, Repr

/-- Embeds `class ColumnInfo(pydantic.BaseModel)`: a frozen name/datatype pair. -/
structure ColumnInfo where
  name : PyStr
  datatype : DataTypes
deriving DecidableEq, Repr

/-- Embeds `class TableInfo(pydantic.BaseModel)`: the ordered column list. -/
structure TableInfo where
  columns : List ColumnInfo
deriving DecidableEq, Repr

/-- The `TableInfo.column_offsets` dict, built in column order as a list
of (name, running byte offset) pairs. -/
def columnOffsetPairs : List ColumnInfo → Nat → List (PyStr × Nat)
  | [], _ => []
  | col :: cols, offset =>
    (col.name, offset) :: columnOffsetPairs cols (offset + DATATYPE_LENGHTS col.datatype)

/-- Lookup in a Python dict built by successive assignment from a pair
list: a later binding of the same key overwrites an earlier one. -/
def dictLookup {β : Type} : List (PyStr × β) → PyStr → Option β
  | [], _ => none
  | (k, v) :: rest, key =>
    match dictLookup rest key with
    | some w => some w
    | none => if k = key then some v else none

/-- Embeds `TableInfo.column_offsets[name]`. -/
def column_offsets (info : TableInfo) (name : PyStr) : Option Nat :=
  dictLookup (columnOffsetPairs info.columns 0) name

/-- Embeds `TableInfo.columns_dict[name]`. -/
def columns_dict (info : TableInfo) (name : PyStr) : Option ColumnInfo :=
  dictLookup (info.columns.map (fun col => (col.name, col))) name

/-- Embeds `TableInfo.row_length`: sum of the column widths. -/
def row_length (info : TableInfo) : Nat :=
  (info.columns.map (fun col => DATATYPE_LENGHTS col.datatype)).sum

/-! ## Value codec -/

/-- Embeds `left_pad(value, length)`: `b"\x00" * (length - len(value)) + value`;
Python's negative-repeat-is-empty matches Nat subtraction exactly. -/
def left_pad (value : PyBytes) (length : Nat) : PyBytes :=
  List.replicate (length - value.length) 0 ++ value

/-- Big-endian base-256 digits of `n`, `width` bytes
(`int.to_bytes(width, "big")` after the range check has passed). -/
def natToBytesBE : Nat → Nat → PyBytes
  | 0, _ => []
  | width + 1, n => natToBytesBE width (n / 256) ++ [n % 256]

/-- Embeds `int.from_bytes(l, "big")` (unsigned accumulation). -/
def natFromBytesBE (l : PyBytes) : Nat :=
  l.foldl (fun acc b => acc * 256 + b) 0

theorem length_natToBytesBE (width n : Nat) :
    (natToBytesBE width n).length = width := by
  induction width generalizing n with
  | zero => rfl
  | succ w ih => simp [natToBytesBE, ih]

theorem natFromBytesBE_append_singleton (l : PyBytes) (b : Nat) :
    natFromBytesBE (l ++ [b]) = natFromBytesBE l * 256 + b := by
  simp [natFromBytesBE, List.foldl_append]

theorem natFromBytesBE_natToBytesBE (width n : Nat) :
    natFromBytesBE (natToBytesBE width n) = n % 256 ^ width := by
  induction width generalizing n with
  | zero => simp [natToBytesBE, natFromBytesBE, Nat.mod_one]
  | succ w ih =>
    rw [natToBytesBE, natFromBytesBE_append_singleton, ih]
    rw [pow_succ']
    rw [Nat.mod_mul]
    ring

/-- Embeds `_serialize_value(datatype, value)`.  The `match` arms mirror the
Python `match`; the final length `assert` is the `valueTooLarge` branch
(it fires exactly when a string's encoding exceeds its 16-byte slot). -/
def serialize_value (datatype : DataTypes) (value : Value) : Except MyErr PyBytes :=
  match datatype, value with
  | .STRING, .str s =>
    if EncodableStr s then
      if (left_pad (utf8Encode s) (DATATYPE_LENGHTS .STRING)).length =
          DATATYPE_LENGHTS .STRING then
        .ok (left_pad (utf8Encode s) (DATATYPE_LENGHTS .STRING))
      else .error .valueTooLarge
    else .error .unicodeEncodeErr
  | .INTEGER, .int n =>
    if -9223372036854775808 ≤ n ∧ n < 9223372036854775808 then
      if (natToBytesBE (DATATYPE_LENGHTS .INTEGER)
          (n % 18446744073709551616).toNat).length =
          DATATYPE_LENGHTS .INTEGER then
        .ok (natToBytesBE (DATATYPE_LENGHTS .INTEGER)
          (n % 18446744073709551616).toNat)
      else .error .valueTooLarge
    else .error .outOfRange
  | _, _ => .error .cannotSerialize

/-- Embeds `bytes.lstrip(b"\x00")`. -/
def lstripNul : PyBytes → PyBytes
  | [] => []
  | b :: rest => if b = 0 then lstripNul rest else b :: rest

/-- Embeds `_deserialize_value(datatype, fd)` applied to the `width` bytes read
from the slot (`fd.read` is performed by the row codec below). -/
def deserialize_value (datatype : DataTypes) (value_as_bytes : PyBytes) :
    Except MyErr Value :=
  match datatype with
  | .STRING =>
    match utf8Decode (lstripNul value_as_bytes) with
    | some s => .ok (.str s)
    | none => .error .unicodeDecodeErr
  | .INTEGER =>
    .ok (.int (if natFromBytesBE value_as_bytes < 9223372036854775808
      then (natFromBytesBE value_as_bytes : Int)
      else (natFromBytesBE value_as_bytes : Int) - 18446744073709551616))

/-! ## Value codec laws -/

theorem utf8Encode_eq_nil_iff (s : PyStr) : utf8Encode s = [] ↔ s = [] := by
  cases s with
  | nil => simp [utf8Encode]
  | cons c rest =>
    simp [utf8Encode, List.append_eq_nil, utf8EncodeCp_ne_nil c]

theorem left_pad_length {value : PyBytes} {length : Nat}
    (h : value.length ≤ length) : (left_pad value length).length = length := by
  simp [left_pad]
  omega

theorem lstripNul_replicate_append (k : Nat) (l : PyBytes) :
    lstripNul (List.replicate k 0 ++ l) = lstripNul l := by
  induction k with
  | zero => simp
  | succ n ih => simpa [List.replicate_succ, lstripNul] using ih

theorem lstripNul_of_head_ne_nul {l : PyBytes} (h : l.head? ≠ some 0) :
    lstripNul l = l := by
  cases l with
  | nil => rfl
  | cons b rest =>
    simp only [List.head?_cons, ne_eq, Option.some.injEq] at h
    simp [lstripNul, h]

theorem serialize_value_string_ok {s : PyStr} (hs : EncodableStr s)
    (hlen : (utf8Encode s).length ≤ 16) :
    serialize_value .STRING (.str s) =
      .ok (left_pad (utf8Encode s) 16) := by
  simp only [serialize_value, DATATYPE_LENGHTS]
  rw [if_pos hs, if_pos (left_pad_length hlen)]

theorem serialize_value_string_too_large {s : PyStr} (hs : EncodableStr s)
    (hlen : 16 < (utf8Encode s).length) :
    serialize_value .STRING (.str s) = .error .valueTooLarge := by
  simp only [serialize_value, DATATYPE_LENGHTS]
  rw [if_pos hs, if_neg]
  simp only [left_pad, List.length_append, List.length_replicate]
  omega

theorem deserialize_serialize_string {s : PyStr} (hs : EncodableStr s)
    (hhead : (utf8Encode s).head? ≠ some 0) :
    deserialize_value .STRING (left_pad (utf8Encode s) 16) = .ok (.str s) := by
  rw [deserialize_value]
  rw [left_pad, lstripNul_replicate_append, lstripNul_of_head_ne_nul hhead,
    utf8Decode_encode hs]

theorem serialize_value_int_ok {n : Int} (h1 : -(2 ^ 63) ≤ n) (h2 : n < 2 ^ 63) :
    serialize_value .INTEGER (.int n) =
      .ok (natToBytesBE 8 (n % 18446744073709551616).toNat) := by
  have h1l : -9223372036854775808 ≤ n := by exact_mod_cast h1
  have h2l : n < 9223372036854775808 := by exact_mod_cast h2
  simp only [serialize_value, DATATYPE_LENGHTS]
  rw [if_pos ⟨h1l, h2l⟩, if_pos (length_natToBytesBE 8 _)]

theorem serialize_value_int_out_of_range {n : Int}
    (h : n < -(2 ^ 63) ∨ 2 ^ 63 ≤ n) :
    serialize_value .INTEGER (.int n) = .error .outOfRange := by
  have hl : n < -9223372036854775808 ∨ 9223372036854775808 ≤ n := by
    norm_num at h ⊢
    exact h
  rw [serialize_value, if_neg]
  rintro ⟨h1, h2⟩
  rcases hl with h | h <;> omega

theorem deserialize_serialize_int {n : Int} (h1 : -(2 ^ 63) ≤ n)
    (h2 : n < 2 ^ 63) :
    deserialize_value .INTEGER
      (natToBytesBE 8 (n % 18446744073709551616).toNat) = .ok (.int n) := by
  have h1l : -9223372036854775808 ≤ n := by exact_mod_cast h1
  have h2l : n < 9223372036854775808 := by exact_mod_cast h2
  rw [deserialize_value]
  have hlt : (n % 18446744073709551616).toNat < 18446744073709551616 := by
    omega
  have hfrom : natFromBytesBE (natToBytesBE 8 (n % 18446744073709551616).toNat) =
      (n % 18446744073709551616).toNat := by
    rw [natFromBytesBE_natToBytesBE]
    exact Nat.mod_eq_of_lt (by norm_num; omega)
  rw [hfrom]
  simp only [Except.ok.injEq, Value.int.injEq]
  split_ifs with hc <;> omega

theorem serialize_value_ok_length {datatype : DataTypes} {value : Value}
    {bs : PyBytes} (h : serialize_value datatype value = .ok bs) :
    bs.length = DATATYPE_LENGHTS datatype := by
  cases datatype <;> cases value <;>
    simp only [serialize_value] at h <;>
    first
      | (split_ifs at h <;> cases h <;> assumption)
      | cases h

/-! ## Row codec -/

/-- Left-to-right effectful map in the `Except` monad, as a plain
recursion (models Python's generator/list construction order, where the
first raised exception propagates). -/
def mapExcept {α β : Type} (f : α → Except MyErr β) : List α → Except MyErr (List β)
  | [] => .ok []
  | a :: as =>
    match f a with
    | .error e => .error e
    | .ok b =>
      match mapExcept f as with
      | .error e => .error e
      | .ok bs => .ok (b :: bs)

theorem mapExcept_ok_of_forall {α β : Type} {f : α → Except MyErr β}
    {g : α → β} {l : List α} (h : ∀ a ∈ l, f a = .ok (g a)) :
    mapExcept f l = .ok (l.map g) := by
  induction l with
  | nil => rfl
  | cons a as ih =>
    rw [mapExcept, h a (by simp), ih (fun x hx => h x (by simp [hx])),
      List.map_cons]

theorem mapExcept_ok_length {α β : Type} {f : α → Except MyErr β}
    {l : List α} {out : List β} (h : mapExcept f l = .ok out) :
    out.length = l.length := by
  induction l generalizing out with
  | nil => cases h; rfl
  | cons a as ih =>
    rw [mapExcept] at h
    match hfa : f a with
    | .error e => rw [hfa] at h; cases h
    | .ok b =>
      rw [hfa] at h
      match hrest : mapExcept f as with
      | .error e => rw [hrest] at h; cases h
      | .ok bs => rw [hrest] at h; cases h; simp [ih hrest]

/-- Embeds `fd.seek(pos)` followed by `fd.read(count)` on a file whose bytes are
`file`. -/
def fileRead (file : PyBytes) (pos count : Nat) : PyBytes :=
  (file.drop pos).take count

/-- Embeds `_serialize_row` without its final length assert: serialize each
column's value, in schema order, and concatenate.  A name absent from the
mapping is a `KeyError` (unreachable from `Table.insert`, which validates
first). -/
def serializeRowAux (values : PyStr → Option Value) :
    List ColumnInfo → Except MyErr PyBytes
  | [] => .ok []
  | col :: cols =>
    match values col.name with
    | none => .error .keyErr
    | some v =>
      match serialize_value col.datatype v with
      | .error e => .error e
      | .ok bs =>
        match serializeRowAux values cols with
        | .error e => .error e
        | .ok rest => .ok (bs ++ rest)

/-- Embeds `_serialize_row(table_info, values)`, final `assert` included. -/
def serialize_row (info : TableInfo) (values : PyStr → Option Value) :
    Except MyErr PyBytes :=
  match serializeRowAux values info.columns with
  | .error e => .error e
  | .ok bs =>
    if bs.length = row_length info then .ok bs else .error .rowLengthAssert

/-- Embeds `_deserialize_row(table_info, file_data, row_start, columns)`: for
each requested column, seek to `row_start + column_offsets[col]`, read the
column's fixed width, decode it.  A column absent from the offsets/schema
dicts is a `KeyError` (unreachable from `Table.query`, which validates
first). -/
def deserialize_row (info : TableInfo) (file : PyBytes) (row_start : Nat)
    (columns : List PyStr) : Except MyErr (List Value) :=
  mapExcept (fun colName =>
    match column_offsets info colName, columns_dict info colName with
    | some off, some col =>
      deserialize_value col.datatype
        (fileRead file (row_start + off) (DATATYPE_LENGHTS col.datatype))
    | _, _ => .error .keyErr) columns

/-! ## Header codec

`_serialize_header` renders the schema with pydantic's
`model_dump_json(indent=None)` and `_deserialize_header` parses it back
with `TableInfo.model_validate_json`.  pydantic-core delegates both to
serde_json, so the embedding models that JSON text layer explicitly: the
compact rendering is the exact grammar
`OPEN-BRACE "columns" COLON LBRACKET item (COMMA item)* RBRACKET
CLOSE-BRACE` with items `OPEN-BRACE "name" COLON string COMMA "datatype"
COLON string CLOSE-BRACE`, strings escaped the way serde_json escapes
them (quote, backslash, and control characters below 0x20, the latter with
the `\b \t \n \f \r` shorthands or lowercase `\u00XX`).  The parser below
accepts exactly the rendered grammar; pydantic's parser accepts a superset
(whitespace etc.), which no code path of this repository ever feeds it. -/

/-- Code points of the text `OPEN-BRACE QUOTE columns QUOTE COLON
LBRACKET`. -/
def litColumnsPre : List Nat :=
  [0x7B, 0x22, 0x63, 0x6F, 0x6C, 0x75, 0x6D, 0x6E, 0x73, 0x22, 0x3A, 0x5B]

/-- Code points of the text `OPEN-BRACE QUOTE name QUOTE COLON`. -/
def litNamePre : List Nat := [0x7B, 0x22, 0x6E, 0x61, 0x6D, 0x65, 0x22, 0x3A]

/-- Code points of the text `COMMA QUOTE datatype QUOTE COLON`. -/
def litDatatypePre : List Nat :=
  [0x2C, 0x22, 0x64, 0x61, 0x74, 0x61, 0x74, 0x79, 0x70, 0x65, 0x22, 0x3A]

/-- Lowercase hex digit character for a value below 16. -/
def hexDigitLower (n : Nat) : Nat := if n < 10 then 0x30 + n else 0x57 + n

/-- serde_json's escaping of one character inside a JSON string. -/
def jsonEscapeCp (c : Nat) : List Nat :=
  if c = 0x22 then [0x5C, 0x22]
  else if c = 0x5C then [0x5C, 0x5C]
  else if 0x20 ≤ c then [c]
  else if c = 0x08 then [0x5C, 0x62]
  else if c = 0x09 then [0x5C, 0x74]
  else if c = 0x0A then [0x5C, 0x6E]
  else if c = 0x0C then [0x5C, 0x66]
  else if c = 0x0D then [0x5C, 0x72]
  else [0x5C, 0x75, 0x30, 0x30, hexDigitLower (c / 16), hexDigitLower (c % 16)]

/-- A JSON string literal: quote, escaped characters, quote. -/
def renderJsonString (s : PyStr) : List Nat :=
  0x22 :: (s.flatMap jsonEscapeCp ++ [0x22])

/-- The `Literal` values `STRING` and `INTEGER` as code-point strings. -/
def datatypeName : DataTypes → PyStr
  | .STRING => [0x53, 0x54, 0x52, 0x49, 0x4E, 0x47]
  | .INTEGER => [0x49, 0x4E, 0x54, 0x45, 0x47, 0x45, 0x52]

/-- JSON text of one `ColumnInfo`, fields in declaration order. -/
def renderColumn (col : ColumnInfo) : List Nat :=
  litNamePre ++ renderJsonString col.name ++ litDatatypePre ++
    renderJsonString (datatypeName col.datatype) ++ [0x7D]

/-- Remaining columns, each preceded by a comma. -/
def renderColumnsRest : List ColumnInfo → List Nat
  | [] => []
  | col :: cols => 0x2C :: (renderColumn col ++ renderColumnsRest cols)

/-- Comma-separated JSON texts of the columns. -/
def renderColumnsSep : List ColumnInfo → List Nat
  | [] => []
  | col :: cols => renderColumn col ++ renderColumnsRest cols

/-- The full JSON text `model_dump_json(indent=None)` renders for a
`TableInfo`. -/
def renderHeaderText (info : TableInfo) : PyStr :=
  litColumnsPre ++ renderColumnsSep info.columns ++ [0x5D, 0x7D]

/-- Embeds `_serialize_header(table_info)`: render the schema with
`model_dump_json` — which fails (`unicodeEncodeErr`) when a column name
is not a sequence of Unicode scalar values, since serde_json/`str.encode`
cannot UTF-8-encode an unpaired surrogate that pydantic's `str`
validation nevertheless accepted — then refuse a line feed anywhere in
the rendered text (`RuntimeError`), UTF-8-encode and append exactly one
line feed. -/
def serialize_header (info : TableInfo) : Except MyErr PyBytes :=
  if ¬ ∀ col ∈ info.columns, EncodableStr col.name then .error .unicodeEncodeErr
  else if 0x0A ∈ renderHeaderText info then .error .headerNewline
  else .ok (utf8Encode (renderHeaderText info) ++ [0x0A])

/-- Hex digit value, either case (JSON `\u` escapes). -/
def hexVal (c : Nat) : Option Nat :=
  if 0x30 ≤ c ∧ c ≤ 0x39 then some (c - 0x30)
  else if 0x41 ≤ c ∧ c ≤ 0x46 then some (c - 0x37)
  else if 0x61 ≤ c ∧ c ≤ 0x66 then some (c - 0x57)
  else none

/-- Value of a single-character JSON escape after the backslash. -/
def unescape1 (e : Nat) : Option Nat :=
  if e = 0x22 then some 0x22
  else if e = 0x5C then some 0x5C
  else if e = 0x2F then some 0x2F
  else if e = 0x62 then some 0x08
  else if e = 0x74 then some 0x09
  else if e = 0x6E then some 0x0A
  else if e = 0x66 then some 0x0C
  else if e = 0x72 then some 0x0D
  else none

/-- Parse the body of a JSON string up to and including the closing
quote, un-escaping as serde_json does (surrogate pairs omitted: the
renderer only emits `\u00XX`). -/
def parseStrBody : List Nat → Option (PyStr × List Nat)
  | [] => none
  | c :: rest =>
    if c = 0x22 then some ([], rest)
    else if c = 0x5C then
      match rest with
      | [] => none
      | e :: rest1 =>
        if e = 0x75 then
          match rest1 with
          | h1 :: h2 :: h3 :: h4 :: rest2 =>
            match hexVal h1, hexVal h2, hexVal h3, hexVal h4 with
            | some a, some b, some c2, some d =>
              match parseStrBody rest2 with
              | some (s, r) => some ((a * 4096 + b * 256 + c2 * 16 + d) :: s, r)
              | none => none
            | _, _, _, _ => none
          | _ => none
        else
          match unescape1 e with
          | some u =>
            match parseStrBody rest1 with
            | some (s, r) => some (u :: s, r)
            | none => none
          | none => none
    else
      match parseStrBody rest with
      | some (s, r) => some (c :: s, r)
      | none => none

/-- Expect an exact literal at the front, returning what follows. -/
def expectLit : List Nat → List Nat → Option (List Nat)
  | [], l => some l
  | _ :: _, [] => none
  | p :: ps, c :: cs => if p = c then expectLit ps cs else none

/-- Parse a JSON string literal, including both quotes. -/
def parseJsonString (l : List Nat) : Option (PyStr × List Nat) :=
  match l with
  | [] => none
  | c :: rest => if c = 0x22 then parseStrBody rest else none

/-- Recover a `DataTypes` from its JSON string (pydantic validating the
`Literal`). -/
def datatypeOfName (s : PyStr) : Option DataTypes :=
  if s = datatypeName .STRING then some .STRING
  else if s = datatypeName .INTEGER then some .INTEGER
  else none

/-- Parse one column object. -/
def parseColumn (l : List Nat) : Option (ColumnInfo × List Nat) := do
  let l1 ← expectLit litNamePre l
  let (name, l2) ← parseJsonString l1
  let l3 ← expectLit litDatatypePre l2
  let (dts, l4) ← parseJsonString l3
  let dt ← datatypeOfName dts
  let l5 ← expectLit [0x7D] l4
  pure (⟨name, dt⟩, l5)

/-- Parse `(COMMA column)*` with explicit fuel (always called with fuel
at least the input length, which bounds the column count). -/
def parseColumnsRest : Nat → List Nat → Option (List ColumnInfo × List Nat)
  | 0, l => if l.head? = some 0x2C then none else some ([], l)
  | fuel + 1, l =>
    if l.head? = some 0x2C then do
      let (col, r) ← parseColumn l.tail
      let (cols, r2) ← parseColumnsRest fuel r
      pure (col :: cols, r2)
    else some ([], l)

/-- Parse a possibly empty column list (stopping at `RBRACKET`). -/
def parseColumns (fuel : Nat) (l : List Nat) :
    Option (List ColumnInfo × List Nat) :=
  if l.head? = some 0x5D then some ([], l)
  else do
    let (col, r) ← parseColumn l
    let (cols, r2) ← parseColumnsRest fuel r
    pure (col :: cols, r2)

/-- Parse the whole header text back to a `TableInfo`. -/
def parseHeaderText (l : PyStr) : Option TableInfo := do
  let l1 ← expectLit litColumnsPre l
  let (cols, l2) ← parseColumns l1.length l1
  let l3 ← expectLit [0x5D, 0x7D] l2
  match l3 with
  | [] => pure ⟨cols⟩
  | _ :: _ => none

/-- Embeds `TableInfo.model_validate_json(bytes)`: UTF-8 decode, then parse;
any failure is a pydantic validation error. -/
def model_validate_json (bs : PyBytes) : Except MyErr TableInfo :=
  match utf8Decode bs with
  | none => .error .headerParseErr
  | some text =>
    match parseHeaderText text with
    | some info => .ok info
    | none => .error .headerParseErr

/-- Embeds `_deserialize_header(serialized_header)`: assert the trailing line
feed, strip it, parse, and return the schema with the full consumed byte
count. -/
def deserialize_header (bs : PyBytes) : Except MyErr (TableInfo × Nat) :=
  if bs.getLast? = some 0x0A then
    match model_validate_json bs.dropLast with
    | .ok info => .ok (info, bs.length)
    | .error e => .error e
  else .error .headerNoNewline

/-! ## Header codec laws -/

theorem hexVal_hexDigitLower {n : Nat} (h : n < 16) :
    hexVal (hexDigitLower n) = some n := by
  unfold hexVal hexDigitLower
  split_ifs <;> simp_all <;> omega

theorem parseStrBody_cons_raw {c : Nat} (h1 : c ≠ 0x22) (h2 : c ≠ 0x5C)
    {l : List Nat} {s : PyStr} {r : List Nat}
    (h : parseStrBody l = some (s, r)) :
    parseStrBody (c :: l) = some (c :: s, r) := by
  rw [parseStrBody.eq_def]
  simp [h1, h2, h]

theorem parseStrBody_cons_esc {e u : Nat} (he : e ≠ 0x75)
    (hu : unescape1 e = some u) {l : List Nat} {s : PyStr} {r : List Nat}
    (h : parseStrBody l = some (s, r)) :
    parseStrBody (0x5C :: e :: l) = some (u :: s, r) := by
  rw [parseStrBody.eq_def]
  simp [he, hu, h]

theorem parseStrBody_cons_u {c : Nat} (hc : c < 0x20) {l : List Nat}
    {s : PyStr} {r : List Nat} (h : parseStrBody l = some (s, r)) :
    parseStrBody (0x5C :: 0x75 :: 0x30 :: 0x30 :: hexDigitLower (c / 16) ::
      hexDigitLower (c % 16) :: l) = some (c :: s, r) := by
  have h1 : hexVal (hexDigitLower (c / 16)) = some (c / 16) :=
    hexVal_hexDigitLower (by omega)
  have h2 : hexVal (hexDigitLower (c % 16)) = some (c % 16) :=
    hexVal_hexDigitLower (by omega)
  have h30 : hexVal 0x30 = some 0 := by decide
  rw [parseStrBody.eq_def]
  simp [h30, h1, h2, h]
  omega

theorem parseStrBody_render (s : PyStr) (rest : List Nat) :
    parseStrBody (s.flatMap jsonEscapeCp ++ (0x22 :: rest)) = some (s, rest) := by
  induction s with
  | nil =>
    rw [List.flatMap_nil, List.nil_append, parseStrBody.eq_def]
    norm_num
  | cons c s ih =>
    rw [List.flatMap_cons, List.append_assoc]
    by_cases h1 : c = 0x22
    · subst h1
      rw [show jsonEscapeCp 0x22 = [0x5C, 0x22] from rfl]
      simp only [List.cons_append, List.nil_append]
      exact parseStrBody_cons_esc (by decide) (by decide) ih
    by_cases h2 : c = 0x5C
    · subst h2
      rw [show jsonEscapeCp 0x5C = [0x5C, 0x5C] from rfl]
      simp only [List.cons_append, List.nil_append]
      exact parseStrBody_cons_esc (by decide) (by decide) ih
    by_cases h3 : 0x20 ≤ c
    · have hesc : jsonEscapeCp c = [c] := by
        unfold jsonEscapeCp
        rw [if_neg h1, if_neg h2, if_pos h3]
      rw [hesc]
      simp only [List.cons_append, List.nil_append]
      exact parseStrBody_cons_raw h1 h2 ih
    by_cases h4 : c = 0x08
    · subst h4
      rw [show jsonEscapeCp 0x08 = [0x5C, 0x62] from rfl]
      simp only [List.cons_append, List.nil_append]
      exact parseStrBody_cons_esc (by decide) (by decide) ih
    by_cases h5 : c = 0x09
    · subst h5
      rw [show jsonEscapeCp 0x09 = [0x5C, 0x74] from rfl]
      simp only [List.cons_append, List.nil_append]
      exact parseStrBody_cons_esc (by decide) (by decide) ih
    by_cases h6 : c = 0x0A
    · subst h6
      rw [show jsonEscapeCp 0x0A = [0x5C, 0x6E] from rfl]
      simp only [List.cons_append, List.nil_append]
      exact parseStrBody_cons_esc (by decide) (by decide) ih
    by_cases h7 : c = 0x0C
    · subst h7
      rw [show jsonEscapeCp 0x0C = [0x5C, 0x66] from rfl]
      simp only [List.cons_append, List.nil_append]
      exact parseStrBody_cons_esc (by decide) (by decide) ih
    by_cases h8 : c = 0x0D
    · subst h8
      rw [show jsonEscapeCp 0x0D = [0x5C, 0x72] from rfl]
      simp only [List.cons_append, List.nil_append]
      exact parseStrBody_cons_esc (by decide) (by decide) ih
    · have hesc : jsonEscapeCp c =
          [0x5C, 0x75, 0x30, 0x30, hexDigitLower (c / 16),
            hexDigitLower (c % 16)] := by
        unfold jsonEscapeCp
        rw [if_neg h1, if_neg h2, if_neg h3, if_neg h4, if_neg h5, if_neg h6,
          if_neg h7, if_neg h8]
      rw [hesc]
      simp only [List.cons_append, List.nil_append]
      exact parseStrBody_cons_u (by omega) ih

theorem expectLit_append (pre rest : List Nat) :
    expectLit pre (pre ++ rest) = some rest := by
  induction pre with
  | nil => rfl
  | cons p ps ih => simp [expectLit, ih]

theorem parseJsonString_render (s : PyStr) (rest : List Nat) :
    parseJsonString (renderJsonString s ++ rest) = some (s, rest) := by
  rw [renderJsonString, List.cons_append, List.append_assoc,
    List.singleton_append]
  show parseStrBody (s.flatMap jsonEscapeCp ++ (0x22 :: rest)) = some (s, rest)
  exact parseStrBody_render s rest

theorem datatypeOfName_datatypeName (dt : DataTypes) :
    datatypeOfName (datatypeName dt) = some dt := by
  cases dt <;> rfl

theorem expectLit_close_brace (rest : List Nat) :
    expectLit [0x7D] (0x7D :: rest) = some rest := rfl

theorem parseColumn_render (col : ColumnInfo) (rest : List Nat) :
    parseColumn (renderColumn col ++ rest) = some (col, rest) := by
  simp [parseColumn, renderColumn, List.append_assoc, expectLit_append,
    parseJsonString_render, datatypeOfName_datatypeName, expectLit_close_brace]

theorem head_renderColumn_append (col : ColumnInfo) (l : List Nat) :
    (renderColumn col ++ l).head? = some 0x7B := by
  simp [renderColumn, litNamePre]

theorem parseColumnsRest_render (cols : List ColumnInfo) :
    ∀ fuel rest, cols.length ≤ fuel → rest.head? = some 0x5D →
    parseColumnsRest fuel (renderColumnsRest cols ++ rest) = some (cols, rest) := by
  induction cols with
  | nil =>
    intro fuel rest _ hrest
    have hne : rest.head? ≠ some 0x2C := by rw [hrest]; decide
    cases fuel with
    | zero => simp [renderColumnsRest, parseColumnsRest, hne]
    | succ f => simp [renderColumnsRest, parseColumnsRest, hne]
  | cons col cols ih =>
    intro fuel rest hfuel hrest
    cases fuel with
    | zero => simp at hfuel
    | succ f =>
      have hcol := parseColumn_render col (renderColumnsRest cols ++ rest)
      have hih := ih f rest (by simp at hfuel; omega) hrest
      simp [renderColumnsRest, parseColumnsRest, List.append_assoc, hcol, hih]

theorem parseColumns_render (cols : List ColumnInfo) (fuel : Nat)
    (rest : List Nat) (hfuel : cols.length ≤ fuel)
    (hrest : rest.head? = some 0x5D) :
    parseColumns fuel (renderColumnsSep cols ++ rest) = some (cols, rest) := by
  cases cols with
  | nil => simp [renderColumnsSep, parseColumns, hrest]
  | cons col cols =>
    have hh : (renderColumn col).head? = some 0x7B := by
      simp [renderColumn, litNamePre]
    have hne : renderColumn col ≠ [] := by
      simp [renderColumn, litNamePre]
    have hcol := parseColumn_render col (renderColumnsRest cols ++ rest)
    have hrest2 := parseColumnsRest_render cols fuel rest
      (by simp at hfuel; omega) hrest
    simp [renderColumnsSep, parseColumns, List.append_assoc, hh, hne, hcol,
      hrest2]

theorem length_renderColumn_pos (col : ColumnInfo) :
    1 ≤ (renderColumn col).length := by
  simp [renderColumn, litNamePre]

theorem length_renderColumnsRest_ge (cols : List ColumnInfo) :
    cols.length ≤ (renderColumnsRest cols).length := by
  induction cols with
  | nil => simp [renderColumnsRest]
  | cons col cols ih =>
    simp only [renderColumnsRest, List.length_cons, List.length_append]
    omega

theorem length_renderColumnsSep_ge (cols : List ColumnInfo) :
    cols.length ≤ (renderColumnsSep cols).length := by
  cases cols with
  | nil => simp [renderColumnsSep]
  | cons col cols =>
    have h1 := length_renderColumn_pos col
    have h2 := length_renderColumnsRest_ge cols
    simp only [renderColumnsSep, List.length_cons, List.length_append]
    omega

theorem expectLit_closing : expectLit [0x5D, 0x7D] [0x5D, 0x7D] = some [] := rfl

theorem parseHeaderText_render (info : TableInfo) :
    parseHeaderText (renderHeaderText info) = some info := by
  have hcols := parseColumns_render info.columns
    ((renderColumnsSep info.columns).length + 2) [0x5D, 0x7D]
    (by have := length_renderColumnsSep_ge info.columns
        omega)
    rfl
  simp [parseHeaderText, renderHeaderText, List.append_assoc, expectLit_append,
    hcols, expectLit_closing]

theorem lf_not_mem_jsonEscapeCp (c : Nat) : 0x0A ∉ jsonEscapeCp c := by
  unfold jsonEscapeCp hexDigitLower
  split_ifs <;> intro hx <;> simp at hx <;> omega

theorem lf_not_mem_renderJsonString (s : PyStr) : 0x0A ∉ renderJsonString s := by
  intro h
  simp only [renderJsonString, List.mem_cons, List.mem_append,
    List.mem_flatMap, List.mem_singleton] at h
  rcases h with h | h
  · exact absurd h (by decide)
  rcases h with ⟨a, -, ha⟩ | h
  · exact lf_not_mem_jsonEscapeCp a ha
  · exact absurd h (by decide)

theorem lf_not_mem_renderColumn (col : ColumnInfo) : 0x0A ∉ renderColumn col := by
  intro h
  simp only [renderColumn, List.mem_append, List.mem_singleton] at h
  rcases h with ((((h | h) | h) | h) | h)
  · exact absurd h (by decide)
  · exact lf_not_mem_renderJsonString col.name h
  · exact absurd h (by decide)
  · exact lf_not_mem_renderJsonString (datatypeName col.datatype) h
  · exact absurd h (by decide)

theorem lf_not_mem_renderColumnsRest (cols : List ColumnInfo) :
    0x0A ∉ renderColumnsRest cols := by
  induction cols with
  | nil => simp [renderColumnsRest]
  | cons col cols ih =>
    intro h
    simp only [renderColumnsRest, List.mem_cons, List.mem_append] at h
    rcases h with h | h | h
    · exact absurd h (by decide)
    · exact lf_not_mem_renderColumn col h
    · exact ih h

theorem lf_not_mem_renderColumnsSep (cols : List ColumnInfo) :
    0x0A ∉ renderColumnsSep cols := by
  cases cols with
  | nil => simp [renderColumnsSep]
  | cons col cols =>
    intro h
    simp only [renderColumnsSep, List.mem_append] at h
    rcases h with h | h
    · exact lf_not_mem_renderColumn col h
    · exact lf_not_mem_renderColumnsRest cols h

theorem lf_not_mem_renderHeaderText (info : TableInfo) :
    0x0A ∉ renderHeaderText info := by
  intro h
  simp only [renderHeaderText, List.mem_append] at h
  rcases h with (h | h) | h
  · exact absurd h (by decide)
  · exact lf_not_mem_renderColumnsSep info.columns h
  · exact absurd h (by decide)

/-- For encodable column names, serialization succeeds: the rendered
schema text never contains a line feed, so `_serialize_header` never
takes its `RuntimeError` branch. -/
theorem serialize_header_ok (info : TableInfo)
    (hnames : ∀ col ∈ info.columns, EncodableStr col.name) :
    serialize_header info =
      .ok (utf8Encode (renderHeaderText info) ++ [0x0A]) := by
  rw [serialize_header, if_neg (not_not_intro hnames),
    if_neg (lf_not_mem_renderHeaderText info)]

theorem lf_not_mem_utf8EncodeCp {c : Nat} (hc : c ≠ 0x0A) :
    0x0A ∉ utf8EncodeCp c := by
  unfold utf8EncodeCp
  split_ifs <;> intro hx <;> simp at hx <;> omega

theorem lf_not_mem_utf8Encode {s : PyStr} (hs : 0x0A ∉ s) :
    0x0A ∉ utf8Encode s := by
  intro h
  rcases List.mem_flatMap.1 h with ⟨c, hc, hm⟩
  exact lf_not_mem_utf8EncodeCp (fun he => hs (he ▸ hc)) hm

theorem encodableStr_append {a b : PyStr} (ha : EncodableStr a)
    (hb : EncodableStr b) : EncodableStr (a ++ b) := by
  intro c hc
  rcases List.mem_append.1 hc with h | h
  · exact ha c h
  · exact hb c h

theorem encodable_jsonEscapeCp {c : Nat} (hc : ValidScalar c) :
    EncodableStr (jsonEscapeCp c) := by
  have hc2 : c < 0xD800 ∨ (0xDFFF < c ∧ c < 0x110000) := hc
  intro x hx
  show x < 0xD800 ∨ (0xDFFF < x ∧ x < 0x110000)
  unfold jsonEscapeCp hexDigitLower at hx
  split_ifs at hx <;> simp at hx <;> omega

theorem encodable_renderJsonString {s : PyStr} (hs : EncodableStr s) :
    EncodableStr (renderJsonString s) := by
  intro x hx
  simp only [renderJsonString, List.mem_cons, List.mem_append,
    List.mem_flatMap, List.mem_singleton] at hx
  rcases hx with hx | hx
  · subst hx; decide
  rcases hx with ⟨a, ha, hm⟩ | hx
  · exact encodable_jsonEscapeCp (hs a ha) x hm
  · rcases hx with hx | hx
    · subst hx; decide
    · simp at hx

theorem encodable_renderColumn {col : ColumnInfo}
    (hname : EncodableStr col.name) : EncodableStr (renderColumn col) := by
  intro x hx
  simp only [renderColumn, List.mem_append, List.mem_singleton] at hx
  rcases hx with ((((hx | hx) | hx) | hx) | hx)
  · exact (by decide : EncodableStr litNamePre) x hx
  · exact encodable_renderJsonString hname x hx
  · exact (by decide : EncodableStr litDatatypePre) x hx
  · refine encodable_renderJsonString ?_ x hx
    cases col.datatype <;> decide
  · subst hx; decide

theorem encodable_renderColumnsRest {cols : List ColumnInfo}
    (h : ∀ col ∈ cols, EncodableStr col.name) :
    EncodableStr (renderColumnsRest cols) := by
  induction cols with
  | nil => intro x hx; simp [renderColumnsRest] at hx
  | cons col cols ih =>
    intro x hx
    simp only [renderColumnsRest, List.mem_cons, List.mem_append] at hx
    rcases hx with hx | hx | hx
    · subst hx; decide
    · exact encodable_renderColumn (h col (by simp)) x hx
    · exact ih (fun c hc => h c (by simp [hc])) x hx

theorem encodable_renderColumnsSep {cols : List ColumnInfo}
    (h : ∀ col ∈ cols, EncodableStr col.name) :
    EncodableStr (renderColumnsSep cols) := by
  cases cols with
  | nil => intro x hx; simp [renderColumnsSep] at hx
  | cons col cols =>
    intro x hx
    simp only [renderColumnsSep, List.mem_append] at hx
    rcases hx with hx | hx
    · exact encodable_renderColumn (h col (by simp)) x hx
    · exact encodable_renderColumnsRest (fun c hc => h c (by simp [hc])) x hx

theorem encodable_renderHeaderText {info : TableInfo}
    (h : ∀ col ∈ info.columns, EncodableStr col.name) :
    EncodableStr (renderHeaderText info) := by
  intro x hx
  simp only [renderHeaderText, List.mem_append] at hx
  rcases hx with (hx | hx) | hx
  · exact (by decide : EncodableStr litColumnsPre) x hx
  · exact encodable_renderColumnsSep h x hx
  · exact (by decide : EncodableStr [0x5D, 0x7D]) x hx

/-- Round trip of the header codec at the byte level. -/
theorem deserialize_header_serialize {info : TableInfo}
    (hnames : ∀ col ∈ info.columns, EncodableStr col.name) :
    deserialize_header (utf8Encode (renderHeaderText info) ++ [0x0A]) =
      .ok (info, (utf8Encode (renderHeaderText info) ++ [0x0A]).length) := by
  rw [deserialize_header, if_pos (by rw [List.getLast?_concat])]
  rw [List.dropLast_concat]
  rw [model_validate_json.eq_def]
  rw [utf8Decode_encode (encodable_renderHeaderText hnames)]
  simp [parseHeaderText_render]

/-! ## Table-name to filename encoding

`urllib.parse.quote_plus` / `unquote_plus` with their default arguments:
UTF-8 encode, keep alphanumerics and `_ . - ~`, encode space as plus,
percent-encode everything else with uppercase hex; decoding accepts
either hex case and finishes with `errors="replace"` UTF-8 decoding. -/

/-- A byte `urllib.parse.quote` never escapes (its `ALWAYS_SAFE` set,
with the default empty extra-safe string). -/
def isAlwaysSafe (b : Nat) : Bool :=
  (0x41 ≤ b && b ≤ 0x5A) || (0x61 ≤ b && b ≤ 0x7A) ||
    (0x30 ≤ b && b ≤ 0x39) || b == 0x5F || b == 0x2E || b == 0x2D || b == 0x7E

/-- Uppercase hex digit character for a value below 16. -/
def hexDigitUpper (n : Nat) : Nat := if n < 10 then 0x30 + n else 0x37 + n

/-- Embeds `quote_plus` on one byte of the UTF-8 encoding. -/
def quoteByte (b : Nat) : List Nat :=
  if isAlwaysSafe b then [b]
  else if b = 0x20 then [0x2B]
  else [0x25, hexDigitUpper (b / 16), hexDigitUpper (b % 16)]

/-- Embeds `urllib.parse.quote_plus(name)` (an all-ASCII filename) on
names that are sequences of Unicode scalar values; on any other `str`
the Python function's internal `name.encode("utf-8")` raises
`UnicodeEncodeError`, which `Table.create` — its only caller — models
explicitly before using this function. -/
def quote_plus (s : PyStr) : List Nat := (utf8Encode s).flatMap quoteByte

/-- The `+` to space replacement `unquote_plus` performs before
percent-decoding. -/
def plusToSpace (l : List Nat) : List Nat :=
  l.map (fun c => if c = 0x2B then 0x20 else c)

/-- Percent-decoding pass of `urllib.parse.unquote`: a percent followed
by two hex digits becomes that byte; anything malformed is kept verbatim
(CPython differs on which characters after a malformed percent are
rescanned, a branch no `quote_plus` output ever reaches).  Fuel-driven;
one unit per emitted character, so the input length always suffices. -/
def unquoteAux : Nat → List Nat → PyBytes
  | _, [] => []
  | 0, l => l
  | fuel + 1, c :: rest =>
    if c = 0x25 then
      match rest with
      | h1 :: h2 :: rest2 =>
        match hexVal h1, hexVal h2 with
        | some a, some b => (a * 16 + b) :: unquoteAux fuel rest2
        | _, _ => c :: unquoteAux fuel rest
      | _ => c :: unquoteAux fuel rest
    else c :: unquoteAux fuel rest

/-- The byte string `urllib.parse.unquote_plus` decodes before its final
UTF-8 `errors="replace"` step. -/
def unquoteBytes (l : List Nat) : PyBytes :=
  unquoteAux l.length (plusToSpace l)

/-- Embeds `urllib.parse.unquote_plus(filename)`. -/
def unquote_plus (l : List Nat) : PyStr := utf8DecodeReplace (unquoteBytes l)

theorem hexVal_hexDigitUpper {n : Nat} (h : n < 16) :
    hexVal (hexDigitUpper n) = some n := by
  unfold hexVal hexDigitUpper
  split_ifs <;> simp_all <;> omega

/-- The image of `quoteByte` under the plus-to-space replacement. -/
def quoteByteNoPlus (b : Nat) : List Nat :=
  if isAlwaysSafe b then [b]
  else if b = 0x20 then [0x20]
  else [0x25, hexDigitUpper (b / 16), hexDigitUpper (b % 16)]

theorem plusToSpace_quoteByte {b : Nat} (hb : b < 256) :
    plusToSpace (quoteByte b) = quoteByteNoPlus b := by
  by_cases hsafe : isAlwaysSafe b
  · have h1 : b ≠ 0x2B := by
      intro he; subst he; simp [isAlwaysSafe] at hsafe
    simp [quoteByte, quoteByteNoPlus, plusToSpace, hsafe, h1]
  · by_cases hsp : b = 0x20
    · subst hsp; simp [quoteByte, quoteByteNoPlus, plusToSpace, hsafe]
    · have hh1 : hexDigitUpper (b / 16) ≠ 0x2B := by
        unfold hexDigitUpper; split_ifs <;> omega
      have hh2 : hexDigitUpper (b % 16) ≠ 0x2B := by
        unfold hexDigitUpper; split_ifs <;> omega
      simp [quoteByte, quoteByteNoPlus, plusToSpace, hsafe, hsp, hh1, hh2]

theorem plusToSpace_append (a b : List Nat) :
    plusToSpace (a ++ b) = plusToSpace a ++ plusToSpace b := by
  simp [plusToSpace]

theorem unquoteAux_quoteByteNoPlus {bs : PyBytes} (h : ∀ b ∈ bs, b < 256) :
    ∀ fuel, bs.length ≤ fuel →
    unquoteAux fuel (bs.flatMap quoteByteNoPlus) = bs := by
  induction bs with
  | nil => intro fuel _; simp [unquoteAux]
  | cons b rest ih =>
    intro fuel hfuel
    have hb : b < 256 := h b (by simp)
    have hrest : ∀ x ∈ rest, x < 256 := fun x hx => h x (by simp [hx])
    match fuel, hfuel with
    | f + 1, hf =>
      have hfle : rest.length ≤ f := by simp at hf; omega
      have hih := ih hrest f hfle
      rw [List.flatMap_cons]
      by_cases hsafe : isAlwaysSafe b
      · have h1 : b ≠ 0x25 := by
          intro he; subst he; simp [isAlwaysSafe] at hsafe
        rw [quoteByteNoPlus, if_pos hsafe, List.singleton_append,
          unquoteAux.eq_def]
        simp [h1, hih]
      · by_cases hsp : b = 0x20
        · subst hsp
          rw [quoteByteNoPlus, if_neg hsafe, if_pos rfl,
            List.singleton_append, unquoteAux.eq_def]
          simp [hih]
        · have hd1 : b / 16 < 16 := by omega
          have hd2 : b % 16 < 16 := by omega
          rw [quoteByteNoPlus, if_neg hsafe, if_neg hsp,
            show [0x25, hexDigitUpper (b / 16), hexDigitUpper (b % 16)] ++
              rest.flatMap quoteByteNoPlus =
              0x25 :: hexDigitUpper (b / 16) :: hexDigitUpper (b % 16) ::
              rest.flatMap quoteByteNoPlus from rfl,
            unquoteAux.eq_def]
          simp [hexVal_hexDigitUpper hd1, hexVal_hexDigitUpper hd2, hih]
          omega

theorem bytes_lt_utf8EncodeCp {c : Nat} (hc : ValidScalar c) :
    ∀ b ∈ utf8EncodeCp c, b < 256 := by
  have hc2 : c < 0xD800 ∨ (0xDFFF < c ∧ c < 0x110000) := hc
  unfold utf8EncodeCp
  split_ifs <;> intro b hb <;> simp at hb <;> omega

theorem bytes_lt_utf8Encode {s : PyStr} (hs : EncodableStr s) :
    ∀ b ∈ utf8Encode s, b < 256 := by
  intro b hb
  rcases List.mem_flatMap.1 hb with ⟨c, hc, hm⟩
  exact bytes_lt_utf8EncodeCp (hs c hc) b hm

theorem length_le_length_flatMap_quoteByte (bs : PyBytes) :
    bs.length ≤ (bs.flatMap quoteByte).length := by
  induction bs with
  | nil => simp
  | cons b rest ih =>
    have h1 : 1 ≤ (quoteByte b).length := by
      unfold quoteByte; split_ifs <;> simp
    rw [List.flatMap_cons, List.length_append]
    simp only [List.length_cons]
    omega

theorem plusToSpace_flatMap_quoteByte {bs : PyBytes} (h : ∀ b ∈ bs, b < 256) :
    plusToSpace (bs.flatMap quoteByte) = bs.flatMap quoteByteNoPlus := by
  induction bs with
  | nil => rfl
  | cons b rest ih =>
    rw [List.flatMap_cons, List.flatMap_cons, plusToSpace_append,
      plusToSpace_quoteByte (h b (by simp)),
      ih (fun x hx => h x (by simp [hx]))]

theorem unquoteBytes_quote_plus {s : PyStr} (hs : EncodableStr s) :
    unquoteBytes (quote_plus s) = utf8Encode s := by
  rw [unquoteBytes, quote_plus,
    plusToSpace_flatMap_quoteByte (bytes_lt_utf8Encode hs)]
  exact unquoteAux_quoteByteNoPlus (bytes_lt_utf8Encode hs) _
    (length_le_length_flatMap_quoteByte (utf8Encode s))

/-- Encode-then-decode identity for table names (the filename contract
of §6): `unquote_plus(quote_plus(name)) == name`. -/
theorem unquote_plus_quote_plus {s : PyStr} (hs : EncodableStr s) :
    unquote_plus (quote_plus s) = s := by
  rw [unquote_plus, unquoteBytes_quote_plus hs, utf8DecodeReplace_encode hs]

/-! ## Table lifecycle -/

/-- The caller-supplied directory: base filename ↦ file contents. -/
abbrev FS := List (List Nat × PyBytes)

/-- Read a file (`Path.open("rb")` + read). -/
def fsRead : FS → List Nat → Option PyBytes
  | [], _ => none
  | (k, v) :: rest, key => if k = key then some v else fsRead rest key

/-- Embeds `Path.write_bytes`: create or overwrite. -/
def fsWrite : FS → List Nat → PyBytes → FS
  | [], key, v => [(key, v)]
  | (k, w) :: rest, key, v =>
    if k = key then (k, v) :: rest else (k, w) :: fsWrite rest key v

/-- Embeds `table_location.exists()`.  The empty filename stands for the
directory itself (`location / ""` collapses to `location` in pathlib),
which is assumed to exist. -/
def fsExists (fs : FS) (key : List Nat) : Bool :=
  key = [] || (fsRead fs key).isSome

theorem fsRead_fsWrite_self (fs : FS) (key : List Nat) (v : PyBytes) :
    fsRead (fsWrite fs key v) key = some v := by
  induction fs with
  | nil => simp [fsWrite, fsRead]
  | cons kv rest ih =>
    rw [fsWrite.eq_def]
    by_cases h : kv.1 = key
    · simp [fsRead, h]
    · simp only [h, if_false]
      rw [fsRead.eq_def]
      simp [h, ih]

/-- An open table handle: file identity, recovered external name, parsed
schema, header byte length (`_data_start`). -/
structure Table where
  filename : List Nat
  name : PyStr
  info : TableInfo
  data_start : Nat
deriving DecidableEq, Repr

/-- Embeds `file.readline(None)`: the bytes up to and including the first line
feed (the whole file if there is none). -/
def readline : PyBytes → PyBytes
  | [] => []
  | b :: rest => if b = 0x0A then [0x0A] else b :: readline rest

theorem readline_append_lf {l : PyBytes} (h : 0x0A ∉ l) :
    readline (l ++ [0x0A]) = l ++ [0x0A] := by
  induction l with
  | nil => rfl
  | cons b rest ih =>
    have hb : b ≠ 0x0A := fun he => h (by simp [he])
    rw [List.cons_append, readline, if_neg hb,
      ih (fun hm => h (by simp [hm]))]

/-- Embeds `Table.__init__(location)`: read the first line of the file, parse
it as the header, record `data_start` and the unquoted external name. -/
def Table.init (fs : FS) (filename : List Nat) : Except MyErr Table :=
  match fsRead fs filename with
  | none => .error .fileNotFound
  | some file =>
    match deserialize_header (readline file) with
    | .error e => .error e
    | .ok (info, n) => .ok ⟨filename, unquote_plus filename, info, n⟩

/-- Embeds `Table.create(name, location, info)`: name-length check, then
`urllib.parse.quote_plus(name)` — whose internal `name.encode("utf-8")`
raises `UnicodeEncodeError` before any filesystem access when the name
is not a sequence of Unicode scalar values (the Lean `quote_plus`
function itself is the encoding on scalar-valued names, so the raise is
modelled here at its call site) — then existence check, header write,
reopen.  Returns the directory contents after the call paired with the
outcome. -/
def Table.create (name : PyStr) (fs : FS) (info : TableInfo) :
    FS × Except MyErr Table :=
  if name.length > MAX_TABLE_NAME_LENGTH then (fs, .error .nameTooLong)
  else if ¬ EncodableStr name then (fs, .error .unicodeEncodeErr)
  else if fsExists fs (quote_plus name) then (fs, .error .alreadyExists)
  else
    match serialize_header info with
    | .error e => (fs, .error e)
    | .ok header =>
      (fsWrite fs (quote_plus name) header,
        Table.init (fsWrite fs (quote_plus name) header) (quote_plus name))

/-- Python's `set(a) - set(b)`, iterated in `a`'s first-occurrence
order (CPython's actual set iteration order is unspecified; the theorems
below only ever use membership in this list). -/
def pySetDiff (a b : List PyStr) : List PyStr :=
  (a.filter (fun n => decide (n ∉ b))).dedup

theorem mem_pySetDiff {a b : List PyStr} {x : PyStr} :
    x ∈ pySetDiff a b ↔ x ∈ a ∧ x ∉ b := by
  simp [pySetDiff, List.mem_dedup, List.mem_filter]

/-- Embeds `Table.insert(*inserted)`: reject provided names absent from the
schema (`ColumnDoesNotExist`, carrying that set of names), then schema
names absent from the provided set (`NotImplementedError`), then
serialize one row from the provided dict and append it.  The result is
the file contents after the call plus the raised exception, if any; both
validations and the serialization happen before the append, so every
error leaves the file unchanged.  (Python iterates the offending `set`s
in unspecified order; the model fixes first-occurrence order, and the
theorems only use the sets' membership.) -/
def Table.insert (info : TableInfo) (file : PyBytes)
    (inserted : List (PyStr × Value)) : PyBytes × Option MyErr :=
  if pySetDiff (inserted.map Prod.fst) (info.columns.map ColumnInfo.name) ≠ [] then
    (file, some (.columnDoesNotExist
      (pySetDiff (inserted.map Prod.fst) (info.columns.map ColumnInfo.name))))
  else if pySetDiff (info.columns.map ColumnInfo.name) (inserted.map Prod.fst) ≠ [] then
    (file, some (.missingColumns
      (pySetDiff (info.columns.map ColumnInfo.name) (inserted.map Prod.fst))))
  else
    match serialize_row info (dictLookup inserted) with
    | .error e => (file, some e)
    | .ok serialized => (file ++ serialized, none)

/-- Embeds `Table.length`: `(st_size - data_start) // row_length`. -/
def Table.length (info : TableInfo) (data_start : Nat) (file : PyBytes) : Nat :=
  (file.length - data_start) / row_length info

/-- Embeds `Table.query(columns)` up to the `rows` list: validate the requested
names, then for each row index below `length` read exactly the requested
columns and build the insertion-ordered `dict(zip(columns, values,
strict=True))` — modelled as the association list of pairs, which for
duplicate-free requests is that dict exactly.  The trailing
`assert len(rows) == self.length` is kept; the `polars.DataFrame`
wrapping is presentation only and not modelled. -/
def Table.query (info : TableInfo) (data_start : Nat) (file : PyBytes)
    (columns : List PyStr) : Except MyErr (List (List (PyStr × Value))) :=
  if pySetDiff columns (info.columns.map ColumnInfo.name) ≠ [] then
    .error (.columnDoesNotExist (pySetDiff columns (info.columns.map ColumnInfo.name)))
  else
    match mapExcept (fun row_num =>
        match deserialize_row info file
            (data_start + row_num * row_length info) columns with
        | .error e => .error e
        | .ok vals => .ok (columns.zip vals))
      (List.range (Table.length info data_start file)) with
    | .error e => .error e
    | .ok rows =>
      if rows.length = Table.length info data_start file then .ok rows
      else .error .queryLengthAssert

/-- A sequence of `insert` calls on a table's file, all of which must
succeed. -/
def insertMany (info : TableInfo) : PyBytes → List (List (PyStr × Value)) →
    Option PyBytes
  | file, [] => some file
  | file, ins :: rest =>
    if (Table.insert info file ins).2 = none then
      insertMany info (Table.insert info file ins).1 rest
    else none

/-! ## Value codec inversions and the conditional round trip -/

theorem serialize_value_string_inv {s : PyStr} {bs : PyBytes}
    (h : serialize_value .STRING (.str s) = .ok bs) :
    EncodableStr s ∧ (utf8Encode s).length ≤ 16 ∧
      bs = left_pad (utf8Encode s) 16 := by
  simp only [serialize_value, DATATYPE_LENGHTS] at h
  split_ifs at h with h1 h2
  · cases h
    refine ⟨h1, ?_, rfl⟩
    simp only [left_pad, List.length_append, List.length_replicate] at h2
    omega

theorem serialize_value_int_inv {n : Int} {bs : PyBytes}
    (h : serialize_value .INTEGER (.int n) = .ok bs) :
    -9223372036854775808 ≤ n ∧ n < 9223372036854775808 ∧
      bs = natToBytesBE 8 ((n % 18446744073709551616).toNat) := by
  simp only [serialize_value, DATATYPE_LENGHTS] at h
  split_ifs at h with h1 h2
  · cases h
    exact ⟨h1.1, h1.2, rfl⟩

/-- A stored value whose STRING encoding does not begin with a NUL byte
(the documented lossy edge case of §4.2/§9). -/
def NoLeadNulValue : Value → Prop
  | .str s => (utf8Encode s).head? ≠ some 0
  | .int _ => True

instance : ∀ v, Decidable (NoLeadNulValue v) := by
  intro v; cases v <;> unfold NoLeadNulValue <;> infer_instance

/-- Conditional value round trip: any slot `_serialize_value` produced
comes back unchanged through `_deserialize_value`, provided a STRING
value's encoding does not start with NUL. -/
theorem deserialize_serialize_value {dt : DataTypes} {v : Value} {bs : PyBytes}
    (h : serialize_value dt v = .ok bs) (hnul : NoLeadNulValue v) :
    deserialize_value dt bs = .ok v := by
  cases dt with
  | STRING =>
    cases v with
    | str s =>
      rcases serialize_value_string_inv h with ⟨h1, h2, h3⟩
      subst h3
      exact deserialize_serialize_string h1 hnul
    | int n => simp [serialize_value] at h
  | INTEGER =>
    cases v with
    | str s => simp [serialize_value] at h
    | int n =>
      rcases serialize_value_int_inv h with ⟨h1, h2, h3⟩
      subst h3
      exact deserialize_serialize_int (by exact_mod_cast h1) (by exact_mod_cast h2)

/-! ## Row layout -/

theorem serializeRowAux_cons_inv {values : PyStr → Option Value}
    {c0 : ColumnInfo} {cols : List ColumnInfo} {bs : PyBytes}
    (h : serializeRowAux values (c0 :: cols) = .ok bs) :
    ∃ v0 sv0 rest, values c0.name = some v0 ∧
      serialize_value c0.datatype v0 = .ok sv0 ∧
      serializeRowAux values cols = .ok rest ∧ bs = sv0 ++ rest := by
  rw [serializeRowAux.eq_def] at h
  cases hv : values c0.name with
  | none => simp [hv] at h
  | some v0 =>
    simp only [hv] at h
    cases hs : serialize_value c0.datatype v0 with
    | error e => simp [hs] at h
    | ok sv0 =>
      simp only [hs] at h
      cases hr : serializeRowAux values cols with
      | error e => simp [hr] at h
      | ok rest =>
        simp only [hr] at h
        cases h
        refine ⟨v0, sv0, rest, ?_, ?_, ?_, rfl⟩ <;> simp [hv, hs, hr]

theorem serializeRowAux_length {values : PyStr → Option Value} :
    ∀ {cols : List ColumnInfo} {bs : PyBytes},
    serializeRowAux values cols = .ok bs →
    bs.length = (cols.map (fun c => DATATYPE_LENGHTS c.datatype)).sum := by
  intro cols
  induction cols with
  | nil => intro bs h; cases h; rfl
  | cons c0 cols ih =>
    intro bs h
    rcases serializeRowAux_cons_inv h with ⟨v0, sv0, rest, _, hs, hr, hbs⟩
    subst hbs
    rw [List.length_append, serialize_value_ok_length hs, ih hr,
      List.map_cons, List.sum_cons]

theorem dictLookup_offsets_not_mem {name : PyStr} :
    ∀ {cols : List ColumnInfo} (base : Nat),
    name ∉ cols.map ColumnInfo.name →
    dictLookup (columnOffsetPairs cols base) name = none := by
  intro cols
  induction cols with
  | nil => intro base _; rfl
  | cons c0 cols ih =>
    intro base hmem
    rw [columnOffsetPairs, dictLookup,
      ih _ (fun hm => hmem (by simp [hm]))]
    rw [if_neg (fun he => hmem (by simp [he]))]

/-- The location of one column's slot inside a serialized row: the
offsets dict points `base + off` at it, the mapping supplied its value,
and the `off ..= off + width` slice of the row is that value's serialized
form. -/
theorem row_slot {values : PyStr → Option Value} :
    ∀ {cols : List ColumnInfo} {bs : PyBytes} (base : Nat) {col : ColumnInfo},
    serializeRowAux values cols = .ok bs →
    (cols.map ColumnInfo.name).Nodup → col ∈ cols →
    ∃ off v sv,
      dictLookup (columnOffsetPairs cols base) col.name = some (base + off) ∧
      values col.name = some v ∧
      serialize_value col.datatype v = .ok sv ∧
      (bs.drop off).take (DATATYPE_LENGHTS col.datatype) = sv ∧
      off + DATATYPE_LENGHTS col.datatype ≤ bs.length := by
  intro cols
  induction cols with
  | nil => intro bs base col _ _ hmem; cases hmem
  | cons c0 cols ih =>
    intro bs base col hser hnodup hmem
    rcases serializeRowAux_cons_inv hser with ⟨v0, sv0, rest, hv0, hs0, hr, hbs⟩
    subst hbs
    have hlen0 : sv0.length = DATATYPE_LENGHTS c0.datatype :=
      serialize_value_ok_length hs0
    rcases List.mem_cons.1 hmem with hcol | hcol
    · subst hcol
      have hnotin : col.name ∉ cols.map ColumnInfo.name := by
        simpa using (List.nodup_cons.1 hnodup).1
      refine ⟨0, v0, sv0, ?_, hv0, hs0, ?_, ?_⟩
      · rw [columnOffsetPairs, dictLookup, dictLookup_offsets_not_mem _ hnotin,
          if_pos rfl, Nat.add_zero]
      · rw [List.drop_zero, List.take_append_of_le_length (by omega), ← hlen0,
          List.take_length]
      · simp [hlen0]
    · have hnodup2 : (cols.map ColumnInfo.name).Nodup :=
        (List.nodup_cons.1 hnodup).2
      rcases ih (base + DATATYPE_LENGHTS c0.datatype) hr hnodup2 hcol with
        ⟨off, v, sv, hoff, hv, hs, hslice, hbound⟩
      refine ⟨DATATYPE_LENGHTS c0.datatype + off, v, sv, ?_, hv, hs, ?_, ?_⟩
      · rw [columnOffsetPairs, dictLookup, hoff, Nat.add_assoc]
      · rw [← hlen0, List.drop_append, hslice]
      · simp only [List.length_append, hlen0]
        rw [Nat.add_assoc]
        exact Nat.add_le_add_left hbound _

/-- Reading a within-row slice of a file through `fileRead`. -/
theorem fileRead_slice {pre rb post : PyBytes} {off w : Nat}
    (hbound : off + w ≤ rb.length) :
    fileRead (pre ++ rb ++ post) (pre.length + off) w =
      (rb.drop off).take w := by
  rw [fileRead, List.append_assoc, List.drop_append,
    List.drop_append_of_le_length (by omega),
    List.take_append_of_le_length (by simp; omega)]

theorem flatten_nth {rl : Nat} :
    ∀ {bss : List PyBytes}, (∀ bs ∈ bss, bs.length = rl) →
    ∀ i (hi : i < bss.length),
    ∃ pre post, bss.flatten = pre ++ bss.get ⟨i, hi⟩ ++ post ∧
      pre.length = i * rl := by
  intro bss
  induction bss with
  | nil => intro _ i hi; cases hi
  | cons b bss ih =>
    intro hlen i hi
    cases i with
    | zero => exact ⟨[], bss.flatten, by simp, by simp⟩
    | succ j =>
      rcases ih (fun bs hbs => hlen bs (by simp [hbs])) j
          (by simpa using hi) with ⟨pre, post, hflat, hpre⟩
      refine ⟨b ++ pre, post, ?_, ?_⟩
      · rw [List.flatten_cons, hflat]
        simp [List.append_assoc]
      · rw [List.length_append, hpre, hlen b (by simp)]
        ring

/-! ## Insert and length laws -/

theorem serialize_row_ok_inv {info : TableInfo} {values : PyStr → Option Value}
    {bs : PyBytes} (h : serialize_row info values = .ok bs) :
    serializeRowAux values info.columns = .ok bs ∧
      bs.length = row_length info := by
  rw [serialize_row.eq_def] at h
  cases haux : serializeRowAux values info.columns with
  | error e => simp [haux] at h
  | ok bs2 =>
    simp only [haux] at h
    split_ifs at h with hlen
    · cases h
      exact ⟨rfl, hlen⟩

theorem serialize_row_of_aux {info : TableInfo} {values : PyStr → Option Value}
    {bs : PyBytes} (h : serializeRowAux values info.columns = .ok bs) :
    serialize_row info values = .ok bs := by
  rw [serialize_row.eq_def, h]
  show (if bs.length = row_length info then (Except.ok bs : Except MyErr PyBytes)
    else .error .rowLengthAssert) = .ok bs
  rw [if_pos (by rw [row_length]; exact serializeRowAux_length h)]

theorem insert_extra {info : TableInfo} {file : PyBytes}
    {ins : List (PyStr × Value)}
    (h : pySetDiff (ins.map Prod.fst) (info.columns.map ColumnInfo.name) ≠ []) :
    Table.insert info file ins = (file, some (.columnDoesNotExist
      (pySetDiff (ins.map Prod.fst) (info.columns.map ColumnInfo.name)))) := by
  rw [Table.insert, if_pos h]

theorem insert_missing {info : TableInfo} {file : PyBytes}
    {ins : List (PyStr × Value)}
    (hex : pySetDiff (ins.map Prod.fst) (info.columns.map ColumnInfo.name) = [])
    (h : pySetDiff (info.columns.map ColumnInfo.name) (ins.map Prod.fst) ≠ []) :
    Table.insert info file ins = (file, some (.missingColumns
      (pySetDiff (info.columns.map ColumnInfo.name) (ins.map Prod.fst)))) := by
  rw [Table.insert, if_neg (by simp [hex]), if_pos h]

theorem insert_ok_char {info : TableInfo} {file : PyBytes}
    {ins : List (PyStr × Value)} {bs : PyBytes}
    (hex : pySetDiff (ins.map Prod.fst) (info.columns.map ColumnInfo.name) = [])
    (hmi : pySetDiff (info.columns.map ColumnInfo.name) (ins.map Prod.fst) = [])
    (hser : serialize_row info (dictLookup ins) = .ok bs) :
    Table.insert info file ins = (file ++ bs, none) := by
  rw [Table.insert, if_neg (by simp [hex]), if_neg (by simp [hmi]), hser]

theorem insert_error_file_unchanged {info : TableInfo} {file : PyBytes}
    {ins : List (PyStr × Value)} {e : MyErr}
    (h : (Table.insert info file ins).2 = some e) :
    (Table.insert info file ins).1 = file := by
  rw [Table.insert.eq_def] at h ⊢
  split_ifs at h ⊢
  · rfl
  · rfl
  · cases hser : serialize_row info (dictLookup ins) with
    | error e2 => simp [hser]
    | ok bs => simp [hser] at h

theorem insert_ok_inv {info : TableInfo} {file file2 : PyBytes}
    {ins : List (PyStr × Value)}
    (h : Table.insert info file ins = (file2, none)) :
    pySetDiff (ins.map Prod.fst) (info.columns.map ColumnInfo.name) = [] ∧
    pySetDiff (info.columns.map ColumnInfo.name) (ins.map Prod.fst) = [] ∧
    ∃ bs, serialize_row info (dictLookup ins) = .ok bs ∧
      file2 = file ++ bs ∧ bs.length = row_length info := by
  rw [Table.insert.eq_def] at h
  split_ifs at h with h1 h2
  · simp at h
  · simp at h
  · push_neg at h1 h2
    cases hser : serialize_row info (dictLookup ins) with
    | error e => rw [hser] at h; simp at h
    | ok bs =>
      rw [hser] at h
      simp only [Prod.mk.injEq] at h
      exact ⟨h1, h2, bs, rfl, h.1.symm, (serialize_row_ok_inv hser).2⟩

theorem insertMany_layout {info : TableInfo} :
    ∀ {rows : List (List (PyStr × Value))} {file file2 : PyBytes},
    insertMany info file rows = some file2 →
    ∃ bss : List PyBytes, file2 = file ++ bss.flatten ∧
      List.Forall₂ (fun ins bs =>
        serialize_row info (dictLookup ins) = .ok bs) rows bss := by
  intro rows
  induction rows with
  | nil =>
    intro file file2 h
    cases h
    exact ⟨[], by simp, List.Forall₂.nil⟩
  | cons ins rows ih =>
    intro file file2 h
    simp only [insertMany] at h
    split_ifs at h with h2
    have hins : Table.insert info file ins =
        ((Table.insert info file ins).1, none) := by
      rw [← h2]
    rcases insert_ok_inv hins with ⟨-, -, bs, hser, hf2, -⟩
    rcases ih h with ⟨bss, hfile, hall⟩
    refine ⟨bs :: bss, ?_, List.Forall₂.cons hser hall⟩
    rw [hfile, hf2, List.flatten_cons, List.append_assoc]

theorem row_length_pos {info : TableInfo} (h : info.columns ≠ []) :
    0 < row_length info := by
  cases hc : info.columns with
  | nil => exact absurd hc h
  | cons c0 cols =>
    rw [row_length, hc, List.map_cons, List.sum_cons]
    have hw : 0 < DATATYPE_LENGHTS c0.datatype := by
      cases c0.datatype <;> decide
    exact Nat.lt_of_lt_of_le hw (Nat.le_add_right _ _)

theorem table_length_eq {info : TableInfo} {ds n : Nat} {file : PyBytes}
    (hrl : 0 < row_length info)
    (hfile : file.length = ds + n * row_length info) :
    Table.length info ds file = n := by
  rw [Table.length, hfile, Nat.add_sub_cancel_left,
    Nat.mul_div_cancel _ hrl]

theorem forall₂_serialize_row_lengths {info : TableInfo}
    {rows : List (List (PyStr × Value))} {bss : List PyBytes}
    (h : List.Forall₂ (fun ins bs =>
      serialize_row info (dictLookup ins) = .ok bs) rows bss) :
    ∀ bs ∈ bss, bs.length = row_length info := by
  induction h with
  | nil => intro bs hbs; cases hbs
  | cons hser _ ih =>
    intro bs hbs
    rcases List.mem_cons.1 hbs with hbs | hbs
    · subst hbs
      exact (serialize_row_ok_inv hser).2
    · exact ih bs hbs

theorem flatten_length_of_uniform {rl : Nat} :
    ∀ {bss : List PyBytes}, (∀ bs ∈ bss, bs.length = rl) →
    bss.flatten.length = bss.length * rl := by
  intro bss
  induction bss with
  | nil => intro _; simp
  | cons b bss ih =>
    intro h
    rw [List.flatten_cons, List.length_append, h b (by simp),
      ih (fun x hx => h x (by simp [hx])), List.length_cons]
    ring

theorem dictLookup_isSome_of_mem {β : Type} {l : List (PyStr × β)} {name : PyStr}
    (h : name ∈ l.map Prod.fst) : ∃ v, dictLookup l name = some v := by
  induction l with
  | nil => simp at h
  | cons kv rest ih =>
    obtain ⟨k, v0⟩ := kv
    rw [List.map_cons] at h
    rw [dictLookup]
    cases hr : dictLookup rest name with
    | some w => exact ⟨w, rfl⟩
    | none =>
      rcases List.mem_cons.1 h with he | hm
      · simp only at he
        refine ⟨v0, ?_⟩
        show (if k = name then some v0 else none) = some v0
        rw [if_pos he.symm]
      · rcases ih hm with ⟨v2, hv⟩
        rw [hv] at hr
        cases hr

theorem dictLookup_mem {β : Type} {l : List (PyStr × β)} {name : PyStr} {v : β}
    (h : dictLookup l name = some v) : (name, v) ∈ l := by
  induction l with
  | nil => cases h
  | cons kv rest ih =>
    obtain ⟨k, v0⟩ := kv
    rw [dictLookup] at h
    cases hr : dictLookup rest name with
    | some w =>
      rw [hr] at h
      cases h
      exact List.mem_cons_of_mem _ (ih hr)
    | none =>
      rw [hr] at h
      by_cases hk : k = name
      · have h2 : some v0 = some v := by
          rw [← h]
          show some v0 = if k = name then some v0 else none
          rw [if_pos hk]
        cases h2
        subst hk
        exact List.mem_cons_self _ _
      · exfalso
        have h2 : (none : Option β) = some v := by
          rw [← h]
          show (none : Option β) = if k = name then some v0 else none
          rw [if_neg hk]
        cases h2

/-! ## Query correctness machinery -/

/-- The value the insert dict supplied for a column (total accessor for
statements; inserts that passed validation always supply one, so the
default is never read). -/
def insertedValue (pairs : List (PyStr × Value)) (c : PyStr) : Value :=
  (dictLookup pairs c).getD (.int 0)

theorem zip_map_self {α β : Type} (l : List α) (g : α → β) :
    l.zip (l.map g) = l.map (fun a => (a, g a)) := by
  induction l with
  | nil => rfl
  | cons a l ih => simp [ih]

theorem columns_dict_mem {info : TableInfo} {c : PyStr} {col : ColumnInfo}
    (h : columns_dict info c = some col) : col.name = c ∧ col ∈ info.columns := by
  rw [columns_dict] at h
  have hmem := dictLookup_mem h
  rw [List.mem_map] at hmem
  rcases hmem with ⟨col2, hcol2, heq⟩
  cases heq
  exact ⟨rfl, hcol2⟩

theorem columns_dict_isSome {info : TableInfo} {c : PyStr}
    (h : c ∈ info.columns.map ColumnInfo.name) :
    ∃ col, columns_dict info c = some col := by
  rw [columns_dict.eq_def]
  apply dictLookup_isSome_of_mem
  rw [List.map_map]
  simpa [Function.comp] using h

theorem pySetDiff_eq_nil {a b : List PyStr} (h : ∀ x ∈ a, x ∈ b) :
    pySetDiff a b = [] := by
  have : a.filter (fun n => decide (n ∉ b)) = [] := by
    rw [List.filter_eq_nil_iff]
    intro x hx
    simpa using h x hx
  rw [pySetDiff, this]
  rfl

/-- One row of the file deserializes back to the values the row codec
serialized, column by requested column. -/
theorem deserialize_row_of_layout {info : TableInfo}
    {pre rowbytes post : PyBytes} {columns : List PyStr}
    {values : PyStr → Option Value}
    (hnodup : (info.columns.map ColumnInfo.name).Nodup)
    (hser : serializeRowAux values info.columns = .ok rowbytes)
    (hcols : ∀ c ∈ columns, c ∈ info.columns.map ColumnInfo.name)
    (hnul : ∀ c v, values c = some v → NoLeadNulValue v) :
    deserialize_row info (pre ++ rowbytes ++ post) pre.length columns =
      .ok (columns.map (fun c => (values c).getD (Value.int 0))) := by
  rw [deserialize_row]
  apply mapExcept_ok_of_forall
  intro c hc
  rcases columns_dict_isSome (hcols c hc) with ⟨col0, hdict⟩
  rcases columns_dict_mem hdict with ⟨hname, hmemcol⟩
  rcases row_slot 0 hser hnodup hmemcol with
    ⟨off, v, sv, hoff, hv, hsv, hslice, hbound⟩
  rw [hname] at hoff hv
  have hoff2 : column_offsets info c = some off := by
    rw [column_offsets]
    simpa using hoff
  simp only [hoff2, hdict]
  rw [fileRead_slice hbound, hslice,
    deserialize_serialize_value hsv (hnul _ _ hv), hv]
  rfl

theorem getD_eq_get {α : Type} (l : List α) (d : α) (i : Nat) (h : i < l.length) :
    l.getD i d = l.get ⟨i, h⟩ := by
  simp [List.getD_eq_getElem?_getD, List.getElem?_eq_getElem h]

/-- Full characterisation of a successful projected scan: querying any
requested columns (all present in the schema) over the file produced by a
sequence of successful inserts returns one record per insert, in
insertion order, each record pairing the requested columns, in request
order, with the values that insert's dict supplied. -/
theorem query_after_inserts {info : TableInfo} {file0 file : PyBytes}
    {rows : List (List (PyStr × Value))} {columns : List PyStr}
    (hnodup : (info.columns.map ColumnInfo.name).Nodup)
    (hne : info.columns ≠ [])
    (hins : insertMany info file0 rows = some file)
    (hcols : ∀ c ∈ columns, c ∈ info.columns.map ColumnInfo.name)
    (hnul : ∀ p ∈ rows, ∀ kv ∈ p, NoLeadNulValue (Prod.snd kv)) :
    Table.query info file0.length file columns =
      .ok (rows.map (fun p => columns.map (fun c => (c, insertedValue p c)))) := by
  have hrl : 0 < row_length info := row_length_pos hne
  rcases insertMany_layout hins with ⟨bss, hfile, hall⟩
  have hlens : ∀ bs ∈ bss, bs.length = row_length info :=
    forall₂_serialize_row_lengths hall
  have hNbss : bss.length = rows.length := hall.length_eq.symm
  have hflat : bss.flatten.length = bss.length * row_length info :=
    flatten_length_of_uniform hlens
  have hlen : Table.length info file0.length file = rows.length := by
    apply table_length_eq hrl
    rw [hfile, List.length_append, hflat, hNbss]
  rw [Table.query, if_neg (fun hcon => hcon (pySetDiff_eq_nil hcols)), hlen]
  have hmain : mapExcept (fun row_num =>
      match deserialize_row info file
          (file0.length + row_num * row_length info) columns with
      | .error e => .error e
      | .ok vals => .ok (columns.zip vals)) (List.range rows.length) =
      .ok ((List.range rows.length).map (fun i =>
        columns.map (fun c => (c, insertedValue (rows.getD i []) c)))) := by
    apply mapExcept_ok_of_forall
    intro i hi
    rw [List.mem_range] at hi
    have hibss : i < bss.length := by omega
    rcases flatten_nth hlens i hibss with ⟨pre, post, hsplit, hpre⟩
    have hser : serialize_row info (dictLookup (rows.getD i [])) =
        .ok (bss.get ⟨i, hibss⟩) := by
      have hfg := (List.forall₂_iff_get.1 hall).2 i (by omega) hibss
      rw [getD_eq_get rows [] i (by omega)]
      exact hfg
    rcases serialize_row_ok_inv hser with ⟨haux, hlenrow⟩
    have hfile2 : file = (file0 ++ pre) ++ bss.get ⟨i, hibss⟩ ++ post := by
      rw [hfile, hsplit]
      simp [List.append_assoc]
    have hstart : file0.length + i * row_length info = (file0 ++ pre).length := by
      rw [List.length_append, hpre]
    rw [hstart, hfile2]
    rw [deserialize_row_of_layout hnodup haux hcols
      (fun c v hv => hnul _ (by
        rw [getD_eq_get rows [] i (by omega)]
        exact List.get_mem rows i _) _ (dictLookup_mem hv))]
    simp only [zip_map_self, insertedValue]
  rw [hmain]
  have hX : (List.map (fun i =>
      List.map (fun c => (c, insertedValue (rows.getD i []) c)) columns)
      (List.range rows.length)) =
      rows.map (fun p => columns.map (fun c => (c, insertedValue p c))) := by
    apply List.ext_getElem
    · simp
    · intro i h1 h2
      simp only [List.getElem_map, List.getElem_range]
      rw [getD_eq_get rows [] i (by simpa using h2), List.get_eq_getElem]
  rw [hX]
  show (if (rows.map (fun p =>
        columns.map (fun c => (c, insertedValue p c)))).length = rows.length
      then Except.ok (rows.map (fun p =>
        columns.map (fun c => (c, insertedValue p c))))
      else Except.error MyErr.queryLengthAssert) = _
  rw [if_pos (by simp)]

/-! ## Remaining supporting lemmas -/

theorem pySetDiff_eq_nil_iff {a b : List PyStr} :
    pySetDiff a b = [] ↔ ∀ x ∈ a, x ∈ b := by
  constructor
  · intro h x hx
    by_contra hxb
    have : x ∈ pySetDiff a b := mem_pySetDiff.2 ⟨hx, hxb⟩
    rw [h] at this
    cases this
  · exact pySetDiff_eq_nil

/-- A value in range for its datatype's fixed-width slot (§4.2): a
STRING whose UTF-8 encoding fits the 16-byte slot, or an INTEGER in the
signed 64-bit range. -/
def InRangeValue : DataTypes → Value → Prop
  | .STRING, .str s => EncodableStr s ∧ (utf8Encode s).length ≤ 16
  | .INTEGER, .int n => -(2 ^ 63) ≤ n ∧ n < 2 ^ 63
  | _, _ => False

theorem serialize_value_ok_of_inRange {dt : DataTypes} {v : Value}
    (h : InRangeValue dt v) : ∃ bs, serialize_value dt v = .ok bs := by
  cases dt <;> cases v <;> unfold InRangeValue at h
  · exact ⟨_, serialize_value_string_ok h.1 h.2⟩
  · cases h
  · cases h
  · exact ⟨_, serialize_value_int_ok h.1 h.2⟩

theorem serializeRowAux_total {values : PyStr → Option Value} :
    ∀ {cols : List ColumnInfo},
    (∀ col ∈ cols, ∃ v, values col.name = some v ∧ InRangeValue col.datatype v) →
    ∃ bs, serializeRowAux values cols = .ok bs := by
  intro cols
  induction cols with
  | nil => intro _; exact ⟨[], rfl⟩
  | cons c0 cols ih =>
    intro h
    rcases h c0 (by simp) with ⟨v0, hv0, hir⟩
    rcases serialize_value_ok_of_inRange hir with ⟨sv0, hsv0⟩
    rcases ih (fun col hcol => h col (by simp [hcol])) with ⟨rest, hrest⟩
    refine ⟨sv0 ++ rest, ?_⟩
    rw [serializeRowAux.eq_def]
    simp [hv0, hsv0, hrest]

theorem query_extra {info : TableInfo} {data_start : Nat} {file : PyBytes}
    {columns : List PyStr}
    (h : pySetDiff columns (info.columns.map ColumnInfo.name) ≠ []) :
    Table.query info data_start file columns = .error (.columnDoesNotExist
      (pySetDiff columns (info.columns.map ColumnInfo.name))) := by
  rw [Table.query, if_pos h]

theorem insertMany_file_length {info : TableInfo} {file0 file : PyBytes}
    {rows : List (List (PyStr × Value))}
    (hins : insertMany info file0 rows = some file) :
    file.length = file0.length + rows.length * row_length info := by
  rcases insertMany_layout hins with ⟨bss, hfile, hall⟩
  rw [hfile, List.length_append,
    flatten_length_of_uniform (forall₂_serialize_row_lengths hall),
    hall.length_eq]

/-! ## The claims -/

/-- C1: Value codec round-trip.  For every supported datatype and
in-range value — a string whose UTF-8 encoding is at most 16 bytes, or an
integer representable in signed 64 bits — deserializing the serialized
fixed-width slot returns the original value: exactly for INTEGER, and for
STRING for every value whose encoding does not begin with a 0x00 byte
(leading NULs are stripped as padding). -/
theorem c1_value_roundtrip :
    (∀ s : PyStr, EncodableStr s → (utf8Encode s).length ≤ 16 →
      (utf8Encode s).head? ≠ some 0 →
      ∃ bs, serialize_value .STRING (.str s) = .ok bs ∧
        deserialize_value .STRING bs = .ok (.str s)) ∧
    (∀ n : Int, -(2 ^ 63) ≤ n → n < 2 ^ 63 →
      ∃ bs, serialize_value .INTEGER (.int n) = .ok bs ∧
        deserialize_value .INTEGER bs = .ok (.int n)) := by
  constructor
  · intro s hs hlen hhead
    exact ⟨_, serialize_value_string_ok hs hlen,
      deserialize_serialize_string hs hhead⟩
  · intro n h1 h2
    exact ⟨_, serialize_value_int_ok h1 h2, deserialize_serialize_int h1 h2⟩

theorem c1_value_roundtrip_witness :
    (∃ bs, serialize_value .STRING (.str [104, 105]) = .ok bs ∧
      deserialize_value .STRING bs = .ok (.str [104, 105])) ∧
    (∃ bs, serialize_value .INTEGER (.int (-5)) = .ok bs ∧
      deserialize_value .INTEGER bs = .ok (.int (-5))) :=
  ⟨c1_value_roundtrip.1 [104, 105] (by decide) (by decide) (by decide),
    c1_value_roundtrip.2 (-5) (by decide) (by decide)⟩

/-- C6: Value codec failure conditions.  `_serialize_value` fails with
the value-too-large signal for every STRING whose UTF-8 encoding exceeds
16 bytes and with the out-of-range signal for every INTEGER outside
[-2^63, 2^63-1]; for in-range values of the matching type it succeeds
with exactly the datatype's fixed width (16 or 8 bytes). -/
theorem c6_value_codec_failure_conditions :
    (∀ s : PyStr, EncodableStr s → 16 < (utf8Encode s).length →
      serialize_value .STRING (.str s) = .error .valueTooLarge) ∧
    (∀ n : Int, (n < -(2 ^ 63) ∨ 2 ^ 63 ≤ n) →
      serialize_value .INTEGER (.int n) = .error .outOfRange) ∧
    (∀ s : PyStr, EncodableStr s → (utf8Encode s).length ≤ 16 →
      ∃ bs, serialize_value .STRING (.str s) = .ok bs ∧ bs.length = 16) ∧
    (∀ n : Int, -(2 ^ 63) ≤ n → n < 2 ^ 63 →
      ∃ bs, serialize_value .INTEGER (.int n) = .ok bs ∧ bs.length = 8) := by
  refine ⟨?_, ?_, ?_, ?_⟩
  · intro s hs hlen
    exact serialize_value_string_too_large hs hlen
  · intro n h
    exact serialize_value_int_out_of_range h
  · intro s hs hlen
    exact ⟨_, serialize_value_string_ok hs hlen, left_pad_length hlen⟩
  · intro n h1 h2
    exact ⟨_, serialize_value_int_ok h1 h2, length_natToBytesBE 8 _⟩

theorem c6_value_codec_failure_conditions_witness :
    serialize_value .STRING
      (.str [97, 97, 97, 97, 97, 97, 97, 97, 97, 97, 97, 97, 97, 97, 97, 97, 97]) =
      .error .valueTooLarge ∧
    serialize_value .INTEGER (.int 9223372036854775808) = .error .outOfRange ∧
    (∃ bs, serialize_value .STRING (.str [98]) = .ok bs ∧ bs.length = 16) ∧
    (∃ bs, serialize_value .INTEGER (.int 7) = .ok bs ∧ bs.length = 8) :=
  ⟨c6_value_codec_failure_conditions.1 _ (by decide) (by decide),
    c6_value_codec_failure_conditions.2.1 _ (by norm_num),
    c6_value_codec_failure_conditions.2.2.1 [98] (by decide) (by decide),
    c6_value_codec_failure_conditions.2.2.2 7 (by norm_num) (by norm_num)⟩

/-- C2: Header codec round-trip.  For every valid `TableInfo` (non-empty
columns, unique — and encodable — names), deserializing the serialized
header yields the same `TableInfo` together with a consumed length equal
to the full byte length of the serialized header, terminator included. -/
theorem c2_header_roundtrip (info : TableInfo)
    (hcols : info.columns ≠ [])
    (hnodup : (info.columns.map ColumnInfo.name).Nodup)
    (hnames : ∀ col ∈ info.columns, EncodableStr col.name) :
    ∃ bs, serialize_header info = .ok bs ∧
      deserialize_header bs = .ok (info, bs.length) :=
  ⟨_, serialize_header_ok info hnames, deserialize_header_serialize hnames⟩

theorem c2_header_roundtrip_witness :
    ∃ bs, serialize_header ⟨[⟨[110], .INTEGER⟩]⟩ = .ok bs ∧
      deserialize_header bs = .ok (⟨[⟨[110], .INTEGER⟩]⟩, bs.length) :=
  c2_header_roundtrip ⟨[⟨[110], .INTEGER⟩]⟩ (by decide) (by decide) (by decide)

/-- C9 (implicit, corrected): header serialization never hits the
newline branch, but is not total.  For every `TableInfo` the rendered
JSON schema text never contains a line-feed code point (the encoder
escapes control characters inside column names), so `_serialize_header`'s
newline-detected error branch is unreachable; and whenever every column
name is UTF-8-encodable (holds no unpaired surrogate), serialization
succeeds, producing bytes that end with exactly one line feed.  The
unconditional form of the claim is refuted by
`c9_header_serialization_total_counterexample`: a column name holding a
lone surrogate makes `model_dump_json`'s `str.encode("utf-8")` raise
`UnicodeEncodeError`. -/
theorem c9_header_serialization_total (info : TableInfo) :
    0x0A ∉ renderHeaderText info ∧
    serialize_header info ≠ .error .headerNewline ∧
    ((∀ col ∈ info.columns, EncodableStr col.name) →
      ∃ bs, serialize_header info = .ok bs ∧
        bs.getLast? = some 0x0A ∧ 0x0A ∉ bs.dropLast) := by
  refine ⟨lf_not_mem_renderHeaderText info, ?_, fun hnames =>
    ⟨_, serialize_header_ok info hnames, ?_, ?_⟩⟩
  · rw [serialize_header]
    split_ifs with h1 h2
    · exact absurd h2 (lf_not_mem_renderHeaderText info)
    · intro hcon
      exact nomatch hcon
    · intro hcon
      exact nomatch hcon
  · rw [List.getLast?_concat]
  · rw [List.dropLast_concat]
    exact lf_not_mem_utf8Encode (lf_not_mem_renderHeaderText info)

/-- C10 (implicit): insert is atomic on validation failure.  Whenever
`Table.insert` fails with `ColumnDoesNotExist` or with the
missing-schema-column signal, the table file is byte-for-byte unchanged,
because both column-set checks complete before any bytes are written. -/
theorem c10_insert_validation_atomic (info : TableInfo) (file : PyBytes)
    (ins : List (PyStr × Value)) :
    (∃ cs, (Table.insert info file ins).2 = some (.columnDoesNotExist cs) ∨
      (Table.insert info file ins).2 = some (.missingColumns cs)) →
    (Table.insert info file ins).1 = file := by
  rintro ⟨cs, h | h⟩ <;> exact insert_error_file_unchanged h

theorem c10_insert_validation_atomic_witness :
    (Table.insert ⟨[⟨[97], .INTEGER⟩]⟩ [1, 2, 3] [([98], Value.int 0)]).1 =
      [1, 2, 3] :=
  c10_insert_validation_atomic ⟨[⟨[97], .INTEGER⟩]⟩ [1, 2, 3]
    [([98], Value.int 0)] ⟨[[98]], Or.inl (by decide)⟩

/-- C4: Insert behaviour.  If any provided column name is absent from
the schema, insert fails with `ColumnDoesNotExist` naming exactly the
absent provided names; otherwise, if any schema column is absent from the
provided names, it fails with the unsupported-feature
(`NotImplementedError`) signal naming the missing schema columns;
otherwise (for serializable in-range values) it appends exactly one
serialized row of `row_length` bytes to the end of the file. -/
theorem c4_insert_behaviour (info : TableInfo) (file : PyBytes)
    (ins : List (PyStr × Value)) :
    (pySetDiff (ins.map Prod.fst) (info.columns.map ColumnInfo.name) ≠ [] →
      Table.insert info file ins = (file, some (.columnDoesNotExist
        (pySetDiff (ins.map Prod.fst) (info.columns.map ColumnInfo.name)))) ∧
      ∀ x, x ∈ pySetDiff (ins.map Prod.fst) (info.columns.map ColumnInfo.name) ↔
        (x ∈ ins.map Prod.fst ∧ x ∉ info.columns.map ColumnInfo.name)) ∧
    (pySetDiff (ins.map Prod.fst) (info.columns.map ColumnInfo.name) = [] →
      pySetDiff (info.columns.map ColumnInfo.name) (ins.map Prod.fst) ≠ [] →
      Table.insert info file ins = (file, some (.missingColumns
        (pySetDiff (info.columns.map ColumnInfo.name) (ins.map Prod.fst))))) ∧
    (pySetDiff (ins.map Prod.fst) (info.columns.map ColumnInfo.name) = [] →
      pySetDiff (info.columns.map ColumnInfo.name) (ins.map Prod.fst) = [] →
      (∀ col ∈ info.columns, ∀ v, dictLookup ins col.name = some v →
        InRangeValue col.datatype v) →
      ∃ bs, Table.insert info file ins = (file ++ bs, none) ∧
        bs.length = row_length info) := by
  refine ⟨?_, ?_, ?_⟩
  · intro h
    exact ⟨insert_extra h, fun x => mem_pySetDiff⟩
  · intro hex h
    exact insert_missing hex h
  · intro hex hmi hvals
    have htotal : ∀ col ∈ info.columns, ∃ v,
        dictLookup ins col.name = some v ∧ InRangeValue col.datatype v := by
      intro col hcol
      have hmem : col.name ∈ ins.map Prod.fst :=
        pySetDiff_eq_nil_iff.1 hmi col.name
          (List.mem_map_of_mem ColumnInfo.name hcol)
      rcases dictLookup_isSome_of_mem hmem with ⟨v, hv⟩
      exact ⟨v, hv, hvals col hcol v hv⟩
    rcases serializeRowAux_total htotal with ⟨bs, haux⟩
    refine ⟨bs, insert_ok_char hex hmi (serialize_row_of_aux haux), ?_⟩
    rw [row_length]
    exact serializeRowAux_length haux

theorem c4_insert_behaviour_witness :
    (Table.insert ⟨[⟨[97], .INTEGER⟩]⟩ [] [([98], Value.int 0)] =
      ([], some (.columnDoesNotExist [[98]]))) ∧
    (Table.insert ⟨[⟨[97], .INTEGER⟩]⟩ [] [] =
      ([], some (.missingColumns [[97]]))) ∧
    (∃ bs, Table.insert ⟨[⟨[97], .INTEGER⟩]⟩ [] [([97], Value.int 3)] =
      ([] ++ bs, none) ∧ bs.length = row_length ⟨[⟨[97], .INTEGER⟩]⟩) := by
  refine ⟨?_, ?_, ?_⟩
  · exact ((c4_insert_behaviour ⟨[⟨[97], .INTEGER⟩]⟩ [] [([98], Value.int 0)]).1
      (by decide)).1
  · exact (c4_insert_behaviour ⟨[⟨[97], .INTEGER⟩]⟩ [] []).2.1
      (by decide) (by decide)
  · exact (c4_insert_behaviour ⟨[⟨[97], .INTEGER⟩]⟩ [] [([97], Value.int 3)]).2.2
      (by decide) (by decide) (by
        intro col hcol v hv
        fin_cases hcol
        cases hv
        constructor <;> norm_num)

/-- C5: Length counts inserts.  For a freshly created table (its file is
exactly the serialized header), after any sequence of n successful
inserts the derived length equals n; the file size minus `data_start`
stays an exact multiple of `row_length` with length the quotient; and
each successful insert increases length by exactly one. -/
theorem c5_length_counts_inserts (info : TableInfo) (header file : PyBytes)
    (rows : List (List (PyStr × Value)))
    (hne : info.columns ≠ [])
    (hheader : serialize_header info = .ok header)
    (hins : insertMany info header rows = some file) :
    Table.length info header.length file = rows.length ∧
    file.length = header.length + rows.length * row_length info ∧
    (file.length - header.length) % row_length info = 0 ∧
    (∀ f ins f2 k, f.length = header.length + k * row_length info →
      Table.insert info f ins = (f2, none) →
      Table.length info header.length f = k ∧
      Table.length info header.length f2 = k + 1) := by
  have hrl : 0 < row_length info := row_length_pos hne
  have hflen := insertMany_file_length hins
  refine ⟨table_length_eq hrl hflen, hflen, ?_, ?_⟩
  · rw [hflen, Nat.add_sub_cancel_left, Nat.mul_mod_left]
  · intro f ins f2 k hf hinsert
    rcases insert_ok_inv hinsert with ⟨-, -, bs, -, hf2, hbs⟩
    refine ⟨table_length_eq hrl hf, table_length_eq hrl ?_⟩
    rw [hf2, List.length_append, hf, hbs]
    ring

/-- A one-INTEGER-column schema used by concrete check instances. -/
def infoOneInt : TableInfo := ⟨[⟨[107], .INTEGER⟩]⟩

/-- A schema whose single STRING column is named by the lone surrogate
code point U+D800 — a `str` that pydantic accepts at validation but that
`str.encode("utf-8")` cannot encode. -/
def infoSurrogate : TableInfo := ⟨[⟨[0xD800], .STRING⟩]⟩

/-- That schema's serialized header bytes. -/
def headerOneInt : PyBytes := utf8Encode (renderHeaderText infoOneInt) ++ [10]

/-- The file after inserting the single row `k = 9`. -/
def fileOneInt : PyBytes :=
  headerOneInt ++ natToBytesBE 8 (((9 : Int) % 18446744073709551616).toNat)

theorem c5_length_counts_inserts_witness :
    Table.length infoOneInt headerOneInt.length fileOneInt = 1 :=
  (c5_length_counts_inserts infoOneInt headerOneInt fileOneInt
    [[([107], Value.int 9)]] (by decide) rfl (by decide)).1

/-- C3 (amended): Query correctness.  For every table with N
successfully inserted rows — none of whose STRING values has a UTF-8
encoding beginning with a NUL byte — and every non-empty duplicate-free
sequence of column names all present in the schema, query returns exactly
N records, rows in insertion order, each record's columns in the
requested order, and each value equal to the value inserted for that
column in that row; if any requested column is absent from the schema,
query fails with `ColumnDoesNotExist` naming every absent requested
column.  (The NUL restriction is forced by the decoder's padding strip:
see the counterexample.) -/
theorem c3_query_correctness (info : TableInfo) (header file : PyBytes)
    (rows : List (List (PyStr × Value))) (columns : List PyStr)
    (hne : info.columns ≠ [])
    (hnodup : (info.columns.map ColumnInfo.name).Nodup)
    (hheader : serialize_header info = .ok header)
    (hins : insertMany info header rows = some file)
    (hnul : ∀ p ∈ rows, ∀ kv ∈ p, NoLeadNulValue (Prod.snd kv)) :
    (columns ≠ [] → columns.Nodup →
      (∀ c ∈ columns, c ∈ info.columns.map ColumnInfo.name) →
      Table.query info header.length file columns =
        .ok (rows.map (fun p => columns.map (fun c => (c, insertedValue p c))))) ∧
    (pySetDiff columns (info.columns.map ColumnInfo.name) ≠ [] →
      Table.query info header.length file columns = .error (.columnDoesNotExist
        (pySetDiff columns (info.columns.map ColumnInfo.name))) ∧
      ∀ x, x ∈ pySetDiff columns (info.columns.map ColumnInfo.name) ↔
        (x ∈ columns ∧ x ∉ info.columns.map ColumnInfo.name)) := by
  constructor
  · intro _ _ hcols
    exact query_after_inserts hnodup hne hins hcols hnul
  · intro h
    exact ⟨query_extra h, fun x => mem_pySetDiff⟩

/-- A one-STRING-column schema used by the query check instances. -/
def infoOneStr : TableInfo := ⟨[⟨[99], .STRING⟩]⟩

/-- That schema's serialized header bytes. -/
def headerOneStr : PyBytes := utf8Encode (renderHeaderText infoOneStr) ++ [10]

/-- The file after inserting the single string whose code points are
`[0, 65]` — a NUL followed by `A`. -/
def fileNulStr : PyBytes := headerOneStr ++ left_pad (utf8Encode [0, 65]) 16

/-- C3 as stated is false: inserting the STRING value `[0, 65]` (NUL
then `A`) succeeds, yet query returns `[65]` — the decoder strips the
leading NUL byte as slot padding, so the value read back differs from
the value inserted. -/
theorem c3_query_correctness_counterexample :
    insertMany infoOneStr headerOneStr [[([99], Value.str [0, 65])]] =
      some fileNulStr ∧
    Table.query infoOneStr headerOneStr.length fileNulStr [[99]] =
      .ok [[([99], Value.str [65])]] ∧
    Value.str [65] ≠ Value.str [0, 65] :=
  ⟨by decide, by rfl, by decide⟩

/-- The file after inserting the single string `[65]` (`A`). -/
def fileAStr : PyBytes := headerOneStr ++ left_pad (utf8Encode [65]) 16

theorem c3_query_correctness_witness :
    Table.query infoOneStr headerOneStr.length fileAStr [[99]] =
      .ok [[([99], Value.str [65])]] := by
  have h := (c3_query_correctness infoOneStr headerOneStr fileAStr
    [[([99], Value.str [65])]] [[99]] (by decide) (by decide) rfl (by decide)
    (by decide)).1 (by decide) (by decide) (by decide)
  rw [h]
  rfl

/-- Opening a file that holds exactly a freshly serialized header. -/
theorem init_fresh_header {fs : FS} {fname : List Nat} {info : TableInfo}
    (hnames : ∀ col ∈ info.columns, EncodableStr col.name)
    (hread : fsRead fs fname =
      some (utf8Encode (renderHeaderText info) ++ [10])) :
    Table.init fs fname = .ok ⟨fname, unquote_plus fname, info,
      (utf8Encode (renderHeaderText info) ++ [10]).length⟩ := by
  have hline := readline_append_lf
    (lf_not_mem_utf8Encode (lf_not_mem_renderHeaderText info))
  simp only [Table.init.eq_def, hread, hline,
    deserialize_header_serialize hnames]

/-- Full characterisation of a successful `Table.create`. -/
theorem create_ok_char {name : PyStr} {fs : FS} {info : TableInfo}
    (hname : EncodableStr name)
    (hnames : ∀ col ∈ info.columns, EncodableStr col.name)
    (hlen : name.length ≤ MAX_TABLE_NAME_LENGTH)
    (hex : fsExists fs (quote_plus name) = false) :
    Table.create name fs info =
      (fsWrite fs (quote_plus name)
          (utf8Encode (renderHeaderText info) ++ [10]),
        .ok ⟨quote_plus name, unquote_plus (quote_plus name), info,
          (utf8Encode (renderHeaderText info) ++ [10]).length⟩) := by
  rw [Table.create, if_neg (by omega), if_neg (not_not_intro hname),
    if_neg (by rw [hex]; decide), serialize_header_ok info hnames]
  show (fsWrite fs (quote_plus name)
      (utf8Encode (renderHeaderText info) ++ [10]),
    Table.init (fsWrite fs (quote_plus name)
      (utf8Encode (renderHeaderText info) ++ [10])) (quote_plus name)) = _
  rw [init_fresh_header hnames (fsRead_fsWrite_self fs (quote_plus name) _)]

/-- C7: Create semantics.  For every name, directory state and valid
schema: create fails with the name-too-long signal when the name exceeds
255 characters before encoding; for an encodable name (one the filename
encoder's internal `str.encode("utf-8")` accepts) it otherwise fails with
the already-exists signal when the encoded target path exists; otherwise
it writes the serialized header as the entire file content and returns an
opened handle, so a just-created table has length 0. -/
theorem c7_create_semantics (name : PyStr) (fs : FS) (info : TableInfo)
    (hnames : ∀ col ∈ info.columns, EncodableStr col.name) :
    (MAX_TABLE_NAME_LENGTH < name.length →
      Table.create name fs info = (fs, .error .nameTooLong)) ∧
    (EncodableStr name →
      name.length ≤ MAX_TABLE_NAME_LENGTH →
      fsExists fs (quote_plus name) = true →
      Table.create name fs info = (fs, .error .alreadyExists)) ∧
    (EncodableStr name →
      name.length ≤ MAX_TABLE_NAME_LENGTH →
      fsExists fs (quote_plus name) = false →
      ∃ header t,
        serialize_header info = .ok header ∧
        Table.create name fs info =
          (fsWrite fs (quote_plus name) header, .ok t) ∧
        fsRead (fsWrite fs (quote_plus name) header) (quote_plus name) =
          some header ∧
        t.info = info ∧ t.data_start = header.length ∧
        Table.length info t.data_start header = 0) := by
  refine ⟨?_, ?_, ?_⟩
  · intro h
    rw [Table.create, if_pos h]
  · intro hname hlen hex
    rw [Table.create, if_neg (by omega), if_neg (not_not_intro hname),
      if_pos hex]
  · intro hname hlen hex
    refine ⟨utf8Encode (renderHeaderText info) ++ [10],
      ⟨quote_plus name, unquote_plus (quote_plus name), info,
        (utf8Encode (renderHeaderText info) ++ [10]).length⟩,
      serialize_header_ok info hnames, create_ok_char hname hnames hlen hex,
      fsRead_fsWrite_self fs (quote_plus name) _, rfl, rfl, ?_⟩
    rw [Table.length, Nat.sub_self, Nat.zero_div]

theorem c7_create_semantics_witness :
    ∃ header t,
      serialize_header infoOneInt = .ok header ∧
      Table.create [120] [] infoOneInt =
        (fsWrite [] (quote_plus [120]) header, .ok t) ∧
      fsRead (fsWrite [] (quote_plus [120]) header) (quote_plus [120]) =
        some header ∧
      t.info = infoOneInt ∧ t.data_start = header.length ∧
      Table.length infoOneInt t.data_start header = 0 :=
  (c7_create_semantics [120] [] infoOneInt (by decide)).2.2
    (by decide) (by decide) (by decide)

/-- C8: Create-then-reopen round-trip.  For every encodable name of at
most 255 characters and every valid schema, after create succeeds,
opening the table again at the same file location yields a handle whose
schema equals the schema passed to create and whose recovered external
name equals the original name — filename encode followed by decode is the
identity, even for names containing spaces, path separators or other
arbitrary characters. -/
theorem c8_create_reopen_roundtrip (name : PyStr) (fs : FS) (info : TableInfo)
    (hname : EncodableStr name)
    (hlen : name.length ≤ MAX_TABLE_NAME_LENGTH)
    (hex : fsExists fs (quote_plus name) = false)
    (hnames : ∀ col ∈ info.columns, EncodableStr col.name) :
    unquote_plus (quote_plus name) = name ∧
    ∃ fs2 t t2,
      Table.create name fs info = (fs2, .ok t) ∧
      Table.init fs2 (quote_plus name) = .ok t2 ∧
      t2.info = info ∧ t2.name = name ∧ t.info = info ∧ t.name = name := by
  have hrt := unquote_plus_quote_plus hname
  refine ⟨hrt,
    fsWrite fs (quote_plus name) (utf8Encode (renderHeaderText info) ++ [10]),
    ⟨quote_plus name, unquote_plus (quote_plus name), info,
      (utf8Encode (renderHeaderText info) ++ [10]).length⟩,
    ⟨quote_plus name, unquote_plus (quote_plus name), info,
      (utf8Encode (renderHeaderText info) ++ [10]).length⟩,
    create_ok_char hname hnames hlen hex,
    init_fresh_header hnames (fsRead_fsWrite_self fs (quote_plus name) _),
    rfl, hrt, rfl, hrt⟩

theorem c8_create_reopen_roundtrip_witness :
    unquote_plus (quote_plus [97, 32, 47]) = [97, 32, 47] ∧
    ∃ fs2 t t2,
      Table.create [97, 32, 47] [] infoOneStr = (fs2, .ok t) ∧
      Table.init fs2 (quote_plus [97, 32, 47]) = .ok t2 ∧
      t2.info = infoOneStr ∧ t2.name = [97, 32, 47] ∧
      t.info = infoOneStr ∧ t.name = [97, 32, 47] :=
  c8_create_reopen_roundtrip [97, 32, 47] [] infoOneStr (by decide) (by decide)
    (by decide) (by decide)

theorem c9_header_serialization_total_witness :
    ∃ bs, serialize_header infoOneInt = .ok bs ∧
      bs.getLast? = some 0x0A ∧ 0x0A ∉ bs.dropLast :=
  (c9_header_serialization_total infoOneInt).2.2 (by decide)

/-- Refutes the unconditional reading of C9: on the schema whose column
name is a lone surrogate, serialization raises the encoder error instead
of succeeding. -/
theorem c9_header_serialization_total_counterexample :
    serialize_header infoSurrogate = .error .unicodeEncodeErr := rfl
